import Mathlib

/-!
Verification of the two-tier LLM cache of `packages/generator/src/cache.py`
(class `LLMCache`).

Modelling conventions:

* Python values that can be stored in the cache are modelled by the closed
  variant `PyVal` (null, bool, int, str, list, string-keyed dict).  Python's
  `None` is the constructor `PyVal.none`; a cache miss is reported by
  returning `PyVal.none`, exactly as the Python `get` returns `None`.
* Timestamps and TTLs are natural numbers (seconds).  Each cache operation
  takes the current clock value `now` as an explicit argument, standing for
  `time.time()`.  The source may read the clock more than once inside a
  single call (e.g. `expires_at` vs `created_at` in `set`); no property
  below depends on that distinction, so one ambient `now` per call is used.
* The in-memory tier `_memory_cache` (a Python dict) is an association list
  with in-place update, preserving insertion order like a dict.
  `_access_order` is a plain list of keys.
* The file tier is a map from file names (within the cache directory) to
  file contents.  A file either parses to a full cache entry
  (`FileContent.valid`) or is unparsable (`FileContent.corrupt`), which in
  the source raises `json.JSONDecodeError` on `json.load`.  The filesystem
  is modelled as reliable: the `OSError` branches of the source (which are
  logged and swallowed) do not occur.
-/

set_option maxRecDepth 10000

namespace Homebook

/-- Closed variant of JSON-serialisable Python payloads (cf. spec section 9:
string | number | boolean | list | string-keyed map, plus `None`). -/
inductive PyVal where
  | none
  | bool (b : Bool)
  | int (n : Int)
  | str (s : String)
  | list (xs : List PyVal)
  | dict (kvs : List (String × PyVal))

mutual

/-- Boolean equality on `PyVal` (Python `==` on the modelled values). -/
def pyBeq : PyVal → PyVal → Bool
  | .none, .none => true
  | .bool a, .bool b => a == b
  | .int a, .int b => a == b
  | .str a, .str b => a == b
  | .list a, .list b => pyBeqList a b
  | .dict a, .dict b => pyBeqPairs a b
  | _, _ => false

/-- Boolean equality on lists of `PyVal`. -/
def pyBeqList : List PyVal → List PyVal → Bool
  | [], [] => true
  | a :: as1, b :: bs1 => pyBeq a b && pyBeqList as1 bs1
  | _, _ => false

/-- Boolean equality on string-keyed pair lists of `PyVal`. -/
def pyBeqPairs : List (String × PyVal) → List (String × PyVal) → Bool
  | [], [] => true
  | (k1, v1) :: r1, (k2, v2) :: r2 => k1 == k2 && pyBeq v1 v2 && pyBeqPairs r1 r2
  | _, _ => false

end

mutual

theorem pyBeq_eq : ∀ a b : PyVal, pyBeq a b = true → a = b
  | .none, .none, _ => rfl
  | .bool a, .bool b, h => by
    simp only [pyBeq, beq_iff_eq] at h; rw [h]
  | .int a, .int b, h => by
    simp only [pyBeq, beq_iff_eq] at h; rw [h]
  | .str a, .str b, h => by
    simp only [pyBeq, beq_iff_eq] at h; rw [h]
  | .list a, .list b, h => by
    rw [pyBeqList_eq a b (by simpa [pyBeq] using h)]
  | .dict a, .dict b, h => by
    rw [pyBeqPairs_eq a b (by simpa [pyBeq] using h)]

theorem pyBeqList_eq : ∀ a b : List PyVal, pyBeqList a b = true → a = b
  | [], [], _ => rfl
  | a :: as1, b :: bs1, h => by
    simp only [pyBeqList, Bool.and_eq_true] at h
    rw [pyBeq_eq a b h.1, pyBeqList_eq as1 bs1 h.2]

theorem pyBeqPairs_eq : ∀ a b : List (String × PyVal), pyBeqPairs a b = true → a = b
  | [], [], _ => rfl
  | (k1, v1) :: r1, (k2, v2) :: r2, h => by
    simp only [pyBeqPairs, Bool.and_eq_true, beq_iff_eq] at h
    rw [h.1.1, pyBeq_eq v1 v2 h.1.2, pyBeqPairs_eq r1 r2 h.2]

end

mutual

theorem pyBeq_refl : ∀ a : PyVal, pyBeq a a = true
  | .none => rfl
  | .bool a => by simp [pyBeq]
  | .int a => by simp [pyBeq]
  | .str a => by simp [pyBeq]
  | .list a => by simpa [pyBeq] using pyBeqList_refl a
  | .dict a => by simpa [pyBeq] using pyBeqPairs_refl a

theorem pyBeqList_refl : ∀ a : List PyVal, pyBeqList a a = true
  | [] => rfl
  | a :: as1 => by simp [pyBeqList, pyBeq_refl a, pyBeqList_refl as1]

theorem pyBeqPairs_refl : ∀ a : List (String × PyVal), pyBeqPairs a a = true
  | [] => rfl
  | (k1, v1) :: r1 => by simp [pyBeqPairs, pyBeq_refl v1, pyBeqPairs_refl r1]

end

instance : DecidableEq PyVal := fun a b =>
  decidable_of_iff (pyBeq a b = true)
    ⟨pyBeq_eq a b, fun h => h ▸ pyBeq_refl a⟩

/-- Lookup in an association list (Python `dict` access / `in` test). -/
def assocGet {α : Type} : List (String × α) → String → Option α
  | [], _ => Option.none
  | (k1, v) :: rest, k => if k1 = k then some v else assocGet rest k

/-- Update/insert in an association list (Python `d[k] = v`): replaces the
value in place when the key is present, appends otherwise, preserving dict
insertion order. -/
def assocSet {α : Type} : List (String × α) → String → α → List (String × α)
  | [], k, v => [(k, v)]
  | (k1, v1) :: rest, k, v =>
    if k1 = k then (k, v) :: rest else (k1, v1) :: assocSet rest k v

/-- Removal from an association list (Python `d.pop(k, None)` / `del d[k]`):
removes the first (for a dict: the only) binding of the key. -/
def assocRemove {α : Type} : List (String × α) → String → List (String × α)
  | [], _ => []
  | (k1, v1) :: rest, k =>
    if k1 = k then rest else (k1, v1) :: assocRemove rest k

/-- Character-wise effect of `key.replace("/", "_").replace("\\", "_")`. -/
def sanChar (c : Char) : Char :=
  if c = '/' then '_' else if c = '\\' then '_' else c

/-- `key.replace("/", "_").replace("\\", "_")` from `_get_file_path`. -/
def sanitizeKey (k : String) : String := ⟨k.data.map sanChar⟩

/-- `_get_file_path`: the name of the cache file for a key (the file
`{safe_key}.json` inside the cache directory). -/
def getFilePath (k : String) : String := sanitizeKey k ++ ".json"

/-- Python `s.startswith(pat)`. -/
def pyStartsWith (s pat : String) : Bool := pat.data.isPrefixOf s.data

/-- Python `s.endswith(pat)`. -/
def pyEndsWith (s pat : String) : Bool := pat.data.isSuffixOf s.data

/-- Hex digit characters, used for `\uXXXX` escapes and for
`hashlib.sha256(...).hexdigest()`. -/
def nib (n : Nat) : Char :=
  match n with
  | 0 => '0' | 1 => '1' | 2 => '2' | 3 => '3'
  | 4 => '4' | 5 => '5' | 6 => '6' | 7 => '7'
  | 8 => '8' | 9 => '9' | 10 => 'a' | 11 => 'b'
  | 12 => 'c' | 13 => 'd' | 14 => 'e' | _ => 'f'

/-- A `\uXXXX` escape for a (UTF-16) code unit. -/
def uEscape (n : Nat) : String :=
  "\\u" ++ ⟨[nib (n / 4096 % 16), nib (n / 256 % 16), nib (n / 16 % 16), nib (n % 16)]⟩

/-- How `json.dumps` with its default `ensure_ascii=True` renders one
character inside a string literal: printable ASCII except `"` and `\` is
kept, the named escapes are used for the usual control characters, and
everything else becomes `\uXXXX` (a surrogate pair beyond the BMP). -/
def escapeChar (c : Char) : String :=
  if c = '"' then "\\\""
  else if c = '\\' then "\\\\"
  else if c = '\n' then "\\n"
  else if c = '\r' then "\\r"
  else if c = '\t' then "\\t"
  else if c.toNat = 8 then "\\b"
  else if c.toNat = 12 then "\\f"
  else if c.toNat < 32 then uEscape c.toNat
  else if c.toNat < 127 then ⟨[c]⟩
  else if c.toNat < 65536 then uEscape c.toNat
  else
    uEscape (55296 + (c.toNat - 65536) / 1024) ++
      uEscape (56320 + (c.toNat - 65536) % 1024)

/-- A JSON string literal for `s`, as `json.dumps` renders it. -/
def jsonQuote (s : String) : String :=
  "\"" ++ String.join (s.data.map escapeChar) ++ "\""

/-- Comma-join with the default `json.dumps` item separator. -/
def joinComma : List String → String
  | [] => ""
  | [s] => s
  | s :: rest => s ++ ", " ++ joinComma rest

/-- `sorted(kwargs.items())` and the effect of `sort_keys=True`: sort
string-keyed pairs by key.  (For a kwargs dict the keys are distinct, so
Python's tuple comparison never reaches the values.) -/
def sortPairs (l : List (String × PyVal)) : List (String × PyVal) :=
  List.insertionSort (fun a b : String × PyVal => a.1 ≤ b.1) l

mutual

/-- Size measure for `PyVal`, used as recursion fuel for `jsonDumpsF`. -/
def pySize : PyVal → Nat
  | .none => 1
  | .bool _ => 1
  | .int _ => 1
  | .str _ => 1
  | .list xs => 1 + pySizeList xs
  | .dict kvs => 1 + pySizePairs kvs

def pySizeList : List PyVal → Nat
  | [] => 0
  | v :: rest => 1 + pySize v + pySizeList rest

def pySizePairs : List (String × PyVal) → Nat
  | [] => 0
  | kv :: rest => 1 + pySize kv.2 + pySizePairs rest

end

/-- `json.dumps(v, sort_keys=True, default=str)` with the default
separators and `ensure_ascii`, written with explicit fuel so that it is
structurally recursive (the fuel is irrelevant once it at least covers the
nesting depth; `jsonDumps` below supplies enough).  Dict keys are sorted
(`sort_keys=True`); `default=str` never fires on the closed `PyVal`
domain, every member of which is JSON-serialisable. -/
def jsonDumpsF : Nat → PyVal → String
  | 0, _ => ""
  | fuel + 1, v =>
    match v with
    | .none => "null"
    | .bool b => if b then "true" else "false"
    | .int n => toString n
    | .str s => jsonQuote s
    | .list xs => "[" ++ joinComma (xs.map (jsonDumpsF fuel)) ++ "]"
    | .dict kvs =>
      "\x7b" ++
        joinComma ((sortPairs kvs).map
          (fun kv => jsonQuote kv.1 ++ ": " ++ jsonDumpsF fuel kv.2)) ++
      "\x7d"

/-- `json.dumps(v, sort_keys=True, default=str)`. -/
def jsonDumps (v : PyVal) : String := jsonDumpsF (pySize v) v

/-- UTF-8 encoding of one character (`str.encode()`). -/
def utf8Char (c : Char) : List Nat :=
  let n := c.toNat
  if n < 128 then [n]
  else if n < 2048 then [192 + n / 64, 128 + n % 64]
  else if n < 65536 then [224 + n / 4096, 128 + n / 64 % 64, 128 + n % 64]
  else [240 + n / 262144, 128 + n / 4096 % 64, 128 + n / 64 % 64, 128 + n % 64]

/-- UTF-8 encoding of a string (`content.encode()`), as a byte list. -/
def utf8Bytes (s : String) : List Nat :=
  s.data.foldr (fun c acc => utf8Char c ++ acc) []

/-- 2^32, the word modulus of SHA-256. -/
def M32 : Nat := 4294967296

/-- Right rotation of a 32-bit word. -/
def rotr32 (x n : Nat) : Nat := ((x >>> n) ||| (x <<< (32 - n))) % M32

/-- SHA-256 big sigma-0. -/
def bigSigmaA (x : Nat) : Nat := rotr32 x 2 ^^^ rotr32 x 13 ^^^ rotr32 x 22

/-- SHA-256 big sigma-1. -/
def bigSigmaB (x : Nat) : Nat := rotr32 x 6 ^^^ rotr32 x 11 ^^^ rotr32 x 25

/-- SHA-256 small sigma-0. -/
def smallSigmaA (x : Nat) : Nat := rotr32 x 7 ^^^ rotr32 x 18 ^^^ (x >>> 3)

/-- SHA-256 small sigma-1. -/
def smallSigmaB (x : Nat) : Nat := rotr32 x 17 ^^^ rotr32 x 19 ^^^ (x >>> 10)

/-- SHA-256 choose. -/
def ch (x y z : Nat) : Nat := (x &&& y) ^^^ ((x ^^^ (M32 - 1)) &&& z)

/-- SHA-256 majority. -/
def maj (x y z : Nat) : Nat := (x &&& y) ^^^ (x &&& z) ^^^ (y &&& z)

/-- The SHA-256 round constants. -/
def K256 : List Nat :=
  [1116352408, 1899447441, 3049323471, 3921009573, 961987163,
   1508970993, 2453635748, 2870763221, 3624381080, 310598401,
   607225278, 1426881987, 1925078388, 2162078206, 2614888103,
   3248222580, 3835390401, 4022224774, 264347078, 604807628,
   770255983, 1249150122, 1555081692, 1996064986, 2554220882,
   2821834349, 2952996808, 3210313671, 3336571891, 3584528711,
   113926993, 338241895, 666307205, 773529912, 1294757372,
   1396182291, 1695183700, 1986661051, 2177026350, 2456956037,
   2730485921, 2820302411, 3259730800, 3345764771, 3516065817,
   3600352804, 4094571909, 275423344, 430227734, 506948616,
   659060556, 883997877, 958139571, 1322822218, 1537002063,
   1747873779, 1955562222, 2024104815, 2227730452, 2361852424,
   2428436474, 2756734187, 3204031479, 3329325298]

/-- The SHA-256 working state / hash value (eight 32-bit words). -/
structure H8 where
  a : Nat
  b : Nat
  c : Nat
  d : Nat
  e : Nat
  f : Nat
  g : Nat
  h : Nat
deriving DecidableEq

/-- The SHA-256 initial hash value. -/
def H0 : H8 :=
  ⟨1779033703, 3144134277, 1013904242, 2773480762,
   1359893119, 2600822924, 528734635, 1541459225⟩

/-- SHA-256 message padding: append `0x80`, zeros to 56 mod 64, and the
message bit length as eight big-endian bytes. -/
def padMsg (msg : List Nat) : List Nat :=
  let L := msg.length
  let k := (119 - L % 64) % 64
  let bits := 8 * L
  msg ++ 128 :: List.replicate k 0 ++
    [bits / 2 ^ 56 % 256, bits / 2 ^ 48 % 256, bits / 2 ^ 40 % 256,
     bits / 2 ^ 32 % 256, bits / 2 ^ 24 % 256, bits / 2 ^ 16 % 256,
     bits / 2 ^ 8 % 256, bits % 256]

/-- Big-endian grouping of bytes into 32-bit words. -/
def toWords : List Nat → List Nat
  | b0 :: b1 :: b2 :: b3 :: rest =>
    (((b0 * 256 + b1) * 256 + b2) * 256 + b3) :: toWords rest
  | _ => []

/-- SHA-256 message schedule: extend 16 words to 64. -/
def extendW (w0 : List Nat) : List Nat :=
  (List.range 48).foldl
    (fun w i =>
      w ++ [(smallSigmaB (w.getD (i + 14) 0) + w.getD (i + 9) 0 +
             smallSigmaA (w.getD (i + 1) 0) + w.getD i 0) % M32])
    w0

/-- One SHA-256 compression round. -/
def sha256Round (s : H8) (kw : Nat × Nat) : H8 :=
  let t1 := (s.h + bigSigmaB s.e + ch s.e s.f s.g + kw.1 + kw.2) % M32
  let t2 := (bigSigmaA s.a + maj s.a s.b s.c) % M32
  ⟨(t1 + t2) % M32, s.a, s.b, s.c, (s.d + t1) % M32, s.e, s.f, s.g⟩

/-- SHA-256 processing of one 64-byte block. -/
def processBlock (hv : H8) (block : List Nat) : H8 :=
  let w := extendW (toWords block)
  let s := (K256.zip w).foldl sha256Round hv
  ⟨(hv.a + s.a) % M32, (hv.b + s.b) % M32, (hv.c + s.c) % M32,
   (hv.d + s.d) % M32, (hv.e + s.e) % M32, (hv.f + s.f) % M32,
   (hv.g + s.g) % M32, (hv.h + s.h) % M32⟩

/-- Iterate `processBlock` over the first `n` 64-byte blocks. -/
def sha256Blocks (hv : H8) (bytes : List Nat) : Nat → H8
  | 0 => hv
  | n + 1 => sha256Blocks (processBlock hv (bytes.take 64)) (bytes.drop 64) n

/-- `hashlib.sha256(bytes)`: the final hash value. -/
def sha256 (msg : List Nat) : H8 :=
  let padded := padMsg msg
  sha256Blocks H0 padded (padded.length / 64)

/-- Eight hex characters of one 32-bit word. -/
def hex8 (w : Nat) : List Char :=
  [nib (w / 16 ^ 7 % 16), nib (w / 16 ^ 6 % 16), nib (w / 16 ^ 5 % 16),
   nib (w / 16 ^ 4 % 16), nib (w / 4096 % 16), nib (w / 256 % 16),
   nib (w / 16 % 16), nib (w % 16)]

/-- `hashlib.sha256(bytes).hexdigest()`: 64 hex characters. -/
def sha256hex (msg : List Nat) : String :=
  let s := sha256 msg
  ⟨hex8 s.a ++ hex8 s.b ++ hex8 s.c ++ hex8 s.d ++
   hex8 s.e ++ hex8 s.f ++ hex8 s.g ++ hex8 s.h⟩

/-- Python `s[:n]` on strings. -/
def strTake (s : String) (n : Nat) : String := ⟨s.data.take n⟩

/-- `_make_key`: sort the kwargs, serialise them canonically, hash, and
return `"{prefix}_{first 16 hex digits}"`. -/
def makeKey (pfx : String) (kwargs : List (String × PyVal)) : String :=
  let sorted_items := sortPairs kwargs
  let content := jsonDumps
    (PyVal.list (sorted_items.map (fun kv => PyVal.list [PyVal.str kv.1, kv.2])))
  let hash_value := strTake (sha256hex (utf8Bytes content)) 16
  pfx ++ "_" ++ hash_value

/-- The hit/miss counters of the cache (`self._stats`). -/
structure Stats where
  memory_hits : Nat
  file_hits : Nat
  misses : Nat
deriving DecidableEq

/-- The keys the file dict of `set` binds before merging `**metadata`. -/
def reservedKeys : List String :=
  ["value", "expires_at", "created_at", "cache_key"]

/-- Numeric reading of an optional JSON value standing where `get`
compares `time.time() > expiry`: Python compares ints, floats and bools
(`True` is `1`) numerically.  A `None`/string/list/dict in `expires_at`
would make every later `get` of the file raise an uncaught `TypeError` in
the source, so such files are outside this total embedding; `pyTimeD`
keeps the supplied default for them, and no theorem below visits that
corner. -/
def pyTimeD (v : Option PyVal) (dflt : Int) : Int :=
  match v with
  | some (PyVal.int n) => n
  | some (PyVal.bool b) => if b then 1 else 0
  | _ => dflt

/-- A parsed cache file, as written by `set`: the dict
`{"value": value, "expires_at": expiry, "created_at": now, "cache_key":
key, **metadata}` (cache.py 226-232).  The dict literal merges
`**metadata` last, so caller metadata named like a reserved field
overrides ("shadows") the computed value; each field below holds the
post-merge value of its key, and `extra` holds the metadata pairs with
non-reserved names.  `expires_at` is the one field `get` reads
numerically, hence its integer type (see `pyTimeD`); a shadowed expiry
can be any integer, including one in the past. -/
structure FileEntry where
  value : PyVal
  expires_at : Int
  created_at : PyVal
  cache_key : PyVal
  extra : List (String × PyVal)
deriving DecidableEq

/-- Contents of a cache file: either a parsed entry or unparsable bytes
(on which `json.load` raises `json.JSONDecodeError`). -/
inductive FileContent where
  | corrupt
  | valid (entry : FileEntry)
deriving DecidableEq

/-- State of one `LLMCache` instance: configuration (`default_ttl` in
seconds, `max_memory_entries`), the memory tier `_memory_cache` with its
`_access_order`, the file tier (files under `cache_dir`), and `_stats`. -/
structure LLMCache where
  default_ttl : Nat
  max_memory_entries : Nat
  memory : List (String × PyVal × Int)
  access_order : List String
  files : List (String × FileContent)
  stats : Stats
deriving DecidableEq

/-- A fresh cache instance over an empty cache directory
(`LLMCache.__init__`). -/
def initCache (default_ttl max_memory_entries : Nat) : LLMCache :=
  ⟨default_ttl, max_memory_entries, [], [], [], ⟨0, 0, 0⟩⟩

namespace LLMCache

/-- `_is_expired`: `time.time() > expiry_timestamp`.  The clock is a
natural number (`time.time()` is non-negative); stored expiries are
integers, since a metadata-shadowed `expires_at` can be any integer. -/
def isExpired (expiry : Int) (now : Nat) : Bool := decide ((now : Int) > expiry)

/-- `_update_access_order`: remove the key if present, then append it. -/
def updateAccessOrder (order : List String) (key : String) : List String :=
  order.erase key ++ [key]

/-- `_evict_if_needed`: `while len(memory) >= max: pop oldest from access
order and drop it from the memory dict; break when the order is empty`.
Returns the memory tier and access order after eviction. -/
def evictIfNeeded (maxEntries : Nat) :
    List String → List (String × PyVal × Int) →
    List (String × PyVal × Int) × List String
  | [], mem => (mem, [])
  | oldest :: rest, mem =>
    if mem.length < maxEntries then (mem, oldest :: rest)
    else evictIfNeeded maxEntries rest (assocRemove mem oldest)

/-- `ttl = ttl or self.default_ttl`: Python falsiness, so both an absent
TTL and a zero TTL resolve to the cache-wide default. -/
def resolveTtl (default_ttl : Nat) : Option Nat → Nat
  | Option.none => default_ttl
  | some t => if t = 0 then default_ttl else t

/-- Second half of `get`: the file-tier lookup (file absent → miss;
unparsable → the exception is caught, miss, file left in place; expired →
file deleted, miss; otherwise hit and promotion into the memory tier). -/
def getFile (st : LLMCache) (now : Nat) (key : String) : PyVal × LLMCache :=
  let path := getFilePath key
  match assocGet st.files path with
  | some (.valid e) =>
    if isExpired e.expires_at now then
      (PyVal.none,
        { st with files := assocRemove st.files path,
                  stats := { st.stats with misses := st.stats.misses + 1 } })
    else
      let p := evictIfNeeded st.max_memory_entries st.access_order st.memory
      (e.value,
        { st with stats := { st.stats with file_hits := st.stats.file_hits + 1 },
                  memory := assocSet p.1 key (e.value, e.expires_at),
                  access_order := updateAccessOrder p.2 key })
  | some .corrupt =>
    (PyVal.none, { st with stats := { st.stats with misses := st.stats.misses + 1 } })
  | Option.none =>
    (PyVal.none, { st with stats := { st.stats with misses := st.stats.misses + 1 } })

/-- `get`: memory tier first (hit refreshes recency; an expired entry is
purged from memory and the access order), then the file tier.  Returns the
value (`PyVal.none` on a miss, as Python returns `None`) and the state. -/
def get (st : LLMCache) (now : Nat) (key : String) : PyVal × LLMCache :=
  match assocGet st.memory key with
  | some (v, expiry) =>
    if isExpired expiry now then
      getFile
        { st with memory := assocRemove st.memory key,
                  access_order := st.access_order.erase key }
        now key
    else
      (v, { st with stats := { st.stats with memory_hits := st.stats.memory_hits + 1 },
                    access_order := updateAccessOrder st.access_order key })
  | Option.none => getFile st now key

/-- `set`: resolve the TTL to one absolute expiry, evict if needed, store
in the memory tier, refresh recency, and write the full entry to the file
tier. -/
def set (st : LLMCache) (now : Nat) (key : String) (value : PyVal)
    (ttl : Option Nat) (metadata : List (String × PyVal)) : LLMCache :=
  let expiry : Int := (now : Int) + (resolveTtl st.default_ttl ttl : Int)
  let p := evictIfNeeded st.max_memory_entries st.access_order st.memory
  { st with
    memory := assocSet p.1 key (value, expiry),
    access_order := updateAccessOrder p.2 key,
    files := assocSet st.files (getFilePath key)
      (.valid
        { value := (assocGet metadata "value").getD value,
          expires_at := pyTimeD (assocGet metadata "expires_at") expiry,
          created_at := (assocGet metadata "created_at").getD (PyVal.int now),
          cache_key := (assocGet metadata "cache_key").getD (PyVal.str key),
          extra := metadata.filter
            (fun kv => !(reservedKeys.contains kv.1)) }) }

/-- `invalidate`: remove one key from the memory tier, the access order and
the file tier. -/
def invalidate (st : LLMCache) (key : String) : LLMCache :=
  { st with
    memory := assocRemove st.memory key,
    access_order := st.access_order.erase key,
    files := assocRemove st.files (getFilePath key) }

/-- The file names matched by `cache_path.glob(f"{prefix}_*.json")` when
`prefix` itself contains no glob metacharacters: names of the form
`{prefix}_{middle}.json` where `middle` (matched by `*`) contains no path
separator. -/
def globMatch (pfx name : String) : Bool :=
  let pat := pfx ++ "_"
  pyStartsWith name pat && pyEndsWith name ".json" &&
    decide (pat.length + 5 ≤ name.length) &&
    ((name.data.take (name.data.length - 5)).drop pat.length).all
      (fun c => !(c = '/'))

/-- `invalidate_prefix`: drop every memory key starting with `{prefix}_`
(and erase each from the access order), unlink every file matching
`{prefix}_*.json`, and return the combined count together with the new
state. -/
def invalidatePrefix (st : LLMCache) (pfx : String) : Nat × LLMCache :=
  let pat := pfx ++ "_"
  let keysToRemove := (st.memory.map Prod.fst).filter
    (fun k => pyStartsWith k pat)
  let removedFiles := st.files.filter (fun f => globMatch pfx f.1)
  (keysToRemove.length + removedFiles.length,
    { st with
      memory := st.memory.filter (fun e => !(pyStartsWith e.1 pat)),
      access_order := keysToRemove.foldl (fun o k => o.erase k) st.access_order,
      files := st.files.filter (fun f => !(globMatch pfx f.1)) })

/-- Result of one `get_or_generate` call: the returned value, the state
after the call, and whether the supplied generator was invoked. -/
structure GenResult where
  value : PyVal
  state : LLMCache
  invoked : Bool
deriving DecidableEq

/-- `get_or_generate`: derive the key with `_make_key`, consult `get`, and
on `cached is not None` return the hit; otherwise invoke the generator
(sync or async alike) and `set` the result with `params=key_params` as
metadata.  The generator is represented by the value it produces;
`invoked` records whether it ran. -/
def getOrGenerate (st : LLMCache) (now : Nat) (pfx : String)
    (genValue : PyVal) (ttl : Option Nat)
    (keyParams : List (String × PyVal)) : GenResult :=
  let key := makeKey pfx keyParams
  let c := get st now key
  if c.1 ≠ PyVal.none then ⟨c.1, c.2, false⟩
  else
    ⟨genValue,
     set c.2 now key genValue ttl [("params", PyVal.dict keyParams)], true⟩

/-- Result of `get_or_generate` with a generator that may raise: either a
normal return or a propagated exception together with the state at the
moment of the raise. -/
inductive ExcResult where
  | ok (value : PyVal) (state : LLMCache) (invoked : Bool)
  | raised (err : String) (state : LLMCache)
deriving DecidableEq

/-- `get_or_generate` with a possibly-raising generator: the body wraps
nothing in `try`, so an exception from `generator()` propagates to the
caller before `set` runs. -/
def getOrGenerateExc (st : LLMCache) (now : Nat) (pfx : String)
    (gen : Except String PyVal) (ttl : Option Nat)
    (keyParams : List (String × PyVal)) : ExcResult :=
  let key := makeKey pfx keyParams
  let c := get st now key
  if c.1 ≠ PyVal.none then .ok c.1 c.2 false
  else
    match gen with
    | .error e => .raised e c.2
    | .ok v =>
      .ok v (set c.2 now key v ttl [("params", PyVal.dict keyParams)]) true

end LLMCache

/-- Keys of the memory dict and file names of the cache directory are
unique, as Python dicts and directories guarantee; the list-based model
permits junk states outside this set, so general theorems assume it. -/
def WFKeys (st : LLMCache) : Prop :=
  (st.memory.map Prod.fst).Nodup ∧ (st.files.map Prod.fst).Nodup

instance (st : LLMCache) : Decidable (WFKeys st) := by
  unfold WFKeys; infer_instance

/-- A string free of the two characters rewritten by `_get_file_path`
sanitisation (and of the path separator that `glob`'s `*` never crosses). -/
def noSlash (s : String) : Bool :=
  s.data.all (fun c => !(c = '/' || c = '\\'))

/-- A string that `glob` treats literally: no metacharacter and no path
separator.  `globMatch` models `glob(f"{prefix}_*.json")` only for such
prefixes. -/
def globLiteral (s : String) : Bool :=
  s.data.all (fun c => !(c = '*' || c = '?' || c = '[' || c = '/' || c = '\\'))

section AssocLemmas

variable {α : Type}

theorem assocGet_assocSet_self (l : List (String × α)) (k : String) (v : α) :
    assocGet (assocSet l k v) k = some v := by
  induction l with
  | nil => simp [assocSet, assocGet]
  | cons hd tl ih =>
    obtain ⟨k1, v1⟩ := hd
    by_cases h : k1 = k
    · simp [assocSet, assocGet, h]
    · simp [assocSet, assocGet, h, ih]

theorem assocGet_assocSet_ne (l : List (String × α)) (k k' : String) (v : α)
    (h : k ≠ k') : assocGet (assocSet l k v) k' = assocGet l k' := by
  induction l with
  | nil => simp [assocSet, assocGet, h]
  | cons hd tl ih =>
    obtain ⟨k1, v1⟩ := hd
    by_cases h1 : k1 = k
    · subst h1; simp [assocSet, assocGet, h]
    · simp [assocSet, assocGet, h1, ih]

theorem map_fst_assocRemove (l : List (String × α)) (k : String) :
    (assocRemove l k).map Prod.fst = (l.map Prod.fst).erase k := by
  induction l with
  | nil => simp [assocRemove]
  | cons hd tl ih =>
    obtain ⟨k1, v1⟩ := hd
    by_cases h : k1 = k
    · subst h; simp [assocRemove, List.erase_cons]
    · simp [assocRemove, List.erase_cons, h, ih]

theorem map_fst_assocSet (l : List (String × α)) (k : String) (v : α) :
    (assocSet l k v).map Prod.fst =
      if k ∈ l.map Prod.fst then l.map Prod.fst else l.map Prod.fst ++ [k] := by
  induction l with
  | nil => simp [assocSet]
  | cons hd tl ih =>
    obtain ⟨k1, v1⟩ := hd
    by_cases h : k1 = k
    · subst h; simp [assocSet]
    · have hne : ¬ k = k1 := fun hh => h hh.symm
      by_cases hmem : k ∈ tl.map Prod.fst <;>
        simp [assocSet, h, ih, hmem, hne]

theorem assocGet_isSome_mem (l : List (String × α)) (k : String)
    (h : (assocGet l k).isSome) : k ∈ l.map Prod.fst := by
  induction l with
  | nil => simp [assocGet] at h
  | cons hd tl ih =>
    obtain ⟨k1, v1⟩ := hd
    by_cases h1 : k1 = k
    · simp [h1]
    · simp only [assocGet, h1, if_false] at h
      simp [ih h]

theorem assocGet_assocRemove_self (l : List (String × α)) (k : String)
    (h : (l.map Prod.fst).Nodup) : assocGet (assocRemove l k) k = Option.none := by
  induction l with
  | nil => simp [assocRemove, assocGet]
  | cons hd tl ih =>
    obtain ⟨k1, v1⟩ := hd
    simp only [List.map_cons, List.nodup_cons] at h
    by_cases h1 : k1 = k
    · subst h1
      have hrem : assocRemove ((k1, v1) :: tl) k1 = tl := by simp [assocRemove]
      rw [hrem]
      cases hl : assocGet tl k1 with
      | none => rfl
      | some v =>
        exact absurd (assocGet_isSome_mem tl k1 (by simp [hl])) h.1
    · simp [assocRemove, assocGet, h1, ih h.2]

theorem assocGet_filter_not (l : List (String × α)) (p : String → Bool)
    (k : String) :
    assocGet (l.filter (fun e => !(p e.1))) k =
      if p k then Option.none else assocGet l k := by
  induction l with
  | nil => simp [assocGet]
  | cons hd tl ih =>
    obtain ⟨k1, v1⟩ := hd
    by_cases h1 : k1 = k
    · subst h1
      by_cases hp : p k1 <;> simp [List.filter_cons, hp, assocGet, ih]
    · by_cases hp : p k1 <;> simp [List.filter_cons, hp, assocGet, h1, ih]

end AssocLemmas

section OpLemmas

/-- An entry written at `now` with any resolved TTL is not expired at `now`
(`_is_expired` is strict). -/
theorem isExpired_add_false (now t : Nat) :
    LLMCache.isExpired ((now : Int) + (t : Int)) now = false := by
  simp only [LLMCache.isExpired, decide_eq_false_iff_not]
  omega

/-- `get` on a fresh instance misses and only bumps the miss counter. -/
theorem get_init (dttl maxE now : Nat) (key : String) :
    LLMCache.get (initCache dttl maxE) now key =
      (PyVal.none, ⟨dttl, maxE, [], [], [], ⟨0, 0, 1⟩⟩) := rfl

/-- `get_or_generate` on a façade miss invokes the generator and stores its
value with the key params as metadata. -/
theorem getOrGenerate_miss (st : LLMCache) (now : Nat) (pfx : String)
    (g : PyVal) (ttl : Option Nat) (kp : List (String × PyVal))
    (h : (LLMCache.get st now (makeKey pfx kp)).1 = PyVal.none) :
    LLMCache.getOrGenerate st now pfx g ttl kp =
      ⟨g, LLMCache.set ((LLMCache.get st now (makeKey pfx kp)).2) now
        (makeKey pfx kp) g ttl [("params", PyVal.dict kp)], true⟩ := by
  unfold LLMCache.getOrGenerate
  simp [h]

/-- `get_or_generate` on a façade hit returns the cached value without
invoking the generator. -/
theorem getOrGenerate_hit (st : LLMCache) (now : Nat) (pfx : String)
    (g : PyVal) (ttl : Option Nat) (kp : List (String × PyVal))
    (h : (LLMCache.get st now (makeKey pfx kp)).1 ≠ PyVal.none) :
    LLMCache.getOrGenerate st now pfx g ttl kp =
      ⟨(LLMCache.get st now (makeKey pfx kp)).1,
       (LLMCache.get st now (makeKey pfx kp)).2, false⟩ := by
  unfold LLMCache.getOrGenerate
  simp [h]

/-- Reading back a key right after `set`, at any time, provided the
metadata does not shadow the stored expiry: the stored value while the
entry is unexpired (both tiers then carry the same expiry), a miss
afterwards. -/
theorem get_set_self (st : LLMCache) (now now2 : Nat) (key : String)
    (v : PyVal) (ttl : Option Nat) (md : List (String × PyVal))
    (hmd : assocGet md "expires_at" = Option.none) :
    (LLMCache.get (LLMCache.set st now key v ttl md) now2 key).1 =
      (if LLMCache.isExpired
          ((now : Int) + (LLMCache.resolveTtl st.default_ttl ttl : Int)) now2
       then PyVal.none else v) := by
  have hmem : assocGet (LLMCache.set st now key v ttl md).memory key =
      some (v, (now : Int) + (LLMCache.resolveTtl st.default_ttl ttl : Int)) := by
    simp [LLMCache.set, assocGet_assocSet_self]
  have hfile : assocGet (LLMCache.set st now key v ttl md).files (getFilePath key) =
      some (.valid
        { value := (assocGet md "value").getD v,
          expires_at := (now : Int) + (LLMCache.resolveTtl st.default_ttl ttl : Int),
          created_at := (assocGet md "created_at").getD (PyVal.int now),
          cache_key := (assocGet md "cache_key").getD (PyVal.str key),
          extra := md.filter (fun kv => !(reservedKeys.contains kv.1)) }) := by
    simp [LLMCache.set, assocGet_assocSet_self, pyTimeD, hmd]
  by_cases hx : LLMCache.isExpired
      ((now : Int) + (LLMCache.resolveTtl st.default_ttl ttl : Int)) now2
  · simp only [LLMCache.get, hmem, hx, if_true, if_pos]
    unfold LLMCache.getFile
    simp [hfile, hx]
  · simp [LLMCache.get, hmem, hx]

end OpLemmas

/-- C7: with memory capacity 3 and nothing expired, the sequence
`set k1; set k2; set k3; get k1; set k4` on distinct keys leaves the
memory tier holding exactly `k1, k3, k4`: the `get` refreshes `k1`'s
recency, so `k2` is the entry the fourth `set` evicts. -/
theorem c7_lru_eviction_sequence :
    (let s1 := LLMCache.set (initCache 3600 3) 0 "k1" (PyVal.int 1) Option.none []
     let s2 := LLMCache.set s1 1 "k2" (PyVal.int 2) Option.none []
     let s3 := LLMCache.set s2 2 "k3" (PyVal.int 3) Option.none []
     let r := LLMCache.get s3 3 "k1"
     let s5 := LLMCache.set r.2 4 "k4" (PyVal.int 4) Option.none []
     r.1 = PyVal.int 1 ∧
     s5.memory.map Prod.fst = ["k1", "k3", "k4"] ∧
     "k2" ∉ s5.memory.map Prod.fst) := by decide

/-- C4 counterexample, two independent failures of the claim.  First,
with a cache-wide default TTL of 100 seconds, a `set` at time 50 with the
explicit TTL `timedelta(0)` stores expiry 150, not 50: Python's
`ttl or self.default_ttl` treats a given zero TTL as falsy, so the expiry
is not computed from the given TTL.  Second, the file dict merges
`**metadata` last, so `set(key, value, expires_at=0)` stores expiry 150
in the memory tier but 0 in the file tier, and at time 50 the shared
strict predicate calls the memory entry live and the file entry expired:
the tiers disagree on that write's expiry. -/
theorem c4_counterexample :
    (assocGet ((LLMCache.set (initCache 100 8) 50 "k" (PyVal.str "v")
      (some 0) []).memory) "k" = some (PyVal.str "v", (150 : Int)) ∧
     (150 : Int) ≠ 50 + 0) ∧
    (assocGet ((LLMCache.set (initCache 100 8) 50 "k2" (PyVal.str "w")
      Option.none [("expires_at", PyVal.int 0)]).memory) "k2" =
        some (PyVal.str "w", (150 : Int)) ∧
     assocGet ((LLMCache.set (initCache 100 8) 50 "k2" (PyVal.str "w")
      Option.none [("expires_at", PyVal.int 0)]).files) (getFilePath "k2") =
        some (.valid ⟨PyVal.str "w", 0, PyVal.int 50, PyVal.str "k2", []⟩) ∧
     LLMCache.isExpired 150 50 = false ∧
     LLMCache.isExpired 0 50 = true) := by decide

/-- C4 (amended): each `set` resolves its TTL to one absolute expiry
`now + resolveTtl default ttl` — the given TTL when it is nonzero, the
cache-wide default when the TTL is absent or zero (Python falsiness).
The memory-tier entry always carries that expiry; the file-tier entry
carries the same `expires_at` provided the caller metadata does not name
the reserved key `expires_at` (the file dict merges `**metadata` last,
cache.py 226-232, so such metadata shadows the stored expiry and the
tiers can disagree).  Both tiers decide expiry with the single strict
predicate `now > expires_at`. -/
theorem c4_tiers_share_expiry (st : LLMCache) (now : Nat) (key : String)
    (v : PyVal) (ttl : Option Nat) (md : List (String × PyVal))
    (hmd : assocGet md "expires_at" = Option.none) :
    (let e := (now : Int) + (LLMCache.resolveTtl st.default_ttl ttl : Int)
     let st1 := LLMCache.set st now key v ttl md
     assocGet st1.memory key = some (v, e) ∧
     (∃ fe : FileEntry, assocGet st1.files (getFilePath key) =
        some (.valid fe) ∧ fe.expires_at = e) ∧
     LLMCache.resolveTtl st.default_ttl Option.none = st.default_ttl ∧
     LLMCache.resolveTtl st.default_ttl (some 0) = st.default_ttl ∧
     (∀ t : Nat, LLMCache.resolveTtl st.default_ttl (some (t + 1)) = t + 1) ∧
     (∀ t : Nat, LLMCache.isExpired e t = decide ((t : Int) > e))) := by
  refine ⟨?_, ?_, ?_, ?_, ?_, ?_⟩
  · simp [LLMCache.set, assocGet_assocSet_self]
  · refine ⟨⟨(assocGet md "value").getD v,
      (now : Int) + (LLMCache.resolveTtl st.default_ttl ttl : Int),
      (assocGet md "created_at").getD (PyVal.int now),
      (assocGet md "cache_key").getD (PyVal.str key),
      md.filter (fun kv => !(reservedKeys.contains kv.1))⟩, ?_, rfl⟩
    simp [LLMCache.set, assocGet_assocSet_self, pyTimeD, hmd]
  · rfl
  · rfl
  · intro t; simp [LLMCache.resolveTtl]
  · intro t; rfl

/-- C4 witness: the amended theorem at concrete inputs with non-reserved
metadata. -/
theorem c4_witness :
    assocGet ((LLMCache.set (initCache 100 8) 50 "k" (PyVal.str "v")
      (some 7) [("params", PyVal.int 1)]).memory) "k" =
      some (PyVal.str "v", ((50 : Nat) : Int) +
        (LLMCache.resolveTtl (initCache 100 8).default_ttl (some 7) : Int)) ∧
    (∃ fe : FileEntry, assocGet ((LLMCache.set (initCache 100 8) 50 "k"
      (PyVal.str "v") (some 7) [("params", PyVal.int 1)]).files)
      (getFilePath "k") = some (.valid fe) ∧
      fe.expires_at = ((50 : Nat) : Int) +
        (LLMCache.resolveTtl (initCache 100 8).default_ttl (some 7) : Int)) :=
  (fun h => ⟨h.1, h.2.1⟩)
    (c4_tiers_share_expiry (initCache 100 8) 50 "k" (PyVal.str "v") (some 7)
      [("params", PyVal.int 1)] (by decide))

/-- C10: a stored `None` is indistinguishable from absence at the public
interface: after `set(key, None)` a `get(key)` returns `None`, exactly as
for a key never set, and `get_or_generate` with a `None`-returning
generator invokes the generator on every call with the same key params
instead of memoizing. -/
theorem c10_stored_none_is_miss :
    (∀ (st : LLMCache) (now : Nat) (key : String) (ttl : Option Nat)
        (md : List (String × PyVal)),
      (LLMCache.get (LLMCache.set st now key PyVal.none ttl md) now key).1 =
        PyVal.none) ∧
    (∀ (dttl maxE now : Nat) (key : String),
      (LLMCache.get (initCache dttl maxE) now key).1 = PyVal.none) ∧
    (∀ (dttl maxE : Nat) (pfx : String) (ttl : Option Nat)
        (kp : List (String × PyVal)) (now1 now2 : Nat),
      (LLMCache.getOrGenerate (initCache dttl maxE) now1 pfx PyVal.none ttl
        kp).invoked = true ∧
      (LLMCache.getOrGenerate
        (LLMCache.getOrGenerate (initCache dttl maxE) now1 pfx PyVal.none ttl
          kp).state now2 pfx PyVal.none ttl kp).invoked = true) := by
  refine ⟨?_, ?_, ?_⟩
  · intro st now key ttl md
    have hmem : assocGet (LLMCache.set st now key PyVal.none ttl md).memory
        key = some (PyVal.none,
          (now : Int) + (LLMCache.resolveTtl st.default_ttl ttl : Int)) := by
      simp [LLMCache.set, assocGet_assocSet_self]
    simp [LLMCache.get, hmem, isExpired_add_false]
  · intro dttl maxE now key
    rw [get_init]
  · intro dttl maxE pfx ttl kp now1 now2
    have h1 : (LLMCache.get (initCache dttl maxE) now1 (makeKey pfx kp)).1 =
        PyVal.none := by rw [get_init]
    have hr1 := getOrGenerate_miss (initCache dttl maxE) now1 pfx PyVal.none
      ttl kp h1
    constructor
    · rw [hr1]
    · rw [hr1]
      have h2 : (LLMCache.get
          (LLMCache.set ((LLMCache.get (initCache dttl maxE) now1
            (makeKey pfx kp)).2) now1 (makeKey pfx kp) PyVal.none ttl
            [("params", PyVal.dict kp)]) now2 (makeKey pfx kp)).1 =
          PyVal.none := by
        rw [get_set_self _ now1 now2 (makeKey pfx kp) PyVal.none ttl
          [("params", PyVal.dict kp)]
          (by simp only [assocGet,
            if_neg (show ¬ ("params" : String) = "expires_at" by decide)])]
        exact ite_self PyVal.none
      rw [getOrGenerate_miss _ now2 pfx PyVal.none ttl kp h2]

section StringLemmas

theorem str_data_append (a b : String) : (a ++ b).data = a.data ++ b.data := by
  cases a; cases b; rfl

theorem str_ext {a b : String} (h : a.data = b.data) : a = b := by
  cases a; cases b; exact congrArg String.mk h

theorem sanChar_fix {c : Char} (h : !(c = '/' || c = '\\')) : sanChar c = c := by
  simp only [Bool.not_eq_true', Bool.or_eq_false_iff, decide_eq_false_iff_not] at h
  simp [sanChar, h.1, h.2]

theorem sanitizeKey_noSlash {k : String} (h : noSlash k = true) :
    sanitizeKey k = k := by
  apply str_ext
  show k.data.map sanChar = k.data
  unfold noSlash at h
  rw [List.all_eq_true] at h
  calc k.data.map sanChar = k.data.map id :=
        List.map_congr_left (fun c hc => sanChar_fix (h c hc))
    _ = k.data := List.map_id k.data

theorem getFilePath_noSlash {k : String} (h : noSlash k = true) :
    getFilePath k = k ++ ".json" := by
  unfold getFilePath
  rw [sanitizeKey_noSlash h]

end StringLemmas

/-- C2 counterexample: on a cache whose only file for key `c` is corrupt,
`get` returns a miss but the corrupt file still exists afterwards — the
`json.JSONDecodeError` handler in `get` only logs, it does not unlink. -/
theorem c2_counterexample :
    (LLMCache.get ⟨100, 10, [], [], [("c.json", FileContent.corrupt)],
      ⟨0, 0, 0⟩⟩ 0 "c").1 = PyVal.none ∧
    assocGet (LLMCache.get ⟨100, 10, [], [], [("c.json", FileContent.corrupt)],
      ⟨0, 0, 0⟩⟩ 0 "c").2.files (getFilePath "c") =
      some FileContent.corrupt := by decide

/-- C2 (amended): for a key whose cache file exists but is unparsable (and
which has no memory-tier entry), `get` returns a miss and leaves the file
tier unchanged: the corrupt file is not deleted by `get` (only
`clear_expired` removes corrupt files). -/
theorem c2_corrupt_file_get_misses_and_keeps_file (st : LLMCache) (now : Nat)
    (key : String)
    (hmem : assocGet st.memory key = Option.none)
    (hfile : assocGet st.files (getFilePath key) = some FileContent.corrupt) :
    (LLMCache.get st now key).1 = PyVal.none ∧
    (LLMCache.get st now key).2.files = st.files := by
  unfold LLMCache.get LLMCache.getFile
  simp [hmem, hfile]

/-- C2 witness: the amended C2 theorem applied to a concrete one-corrupt-file
cache. -/
theorem c2_witness :
    (LLMCache.get ⟨100, 10, [], [], [("k.json", FileContent.corrupt)],
      ⟨0, 0, 0⟩⟩ 0 "k").1 = PyVal.none ∧
    (LLMCache.get ⟨100, 10, [], [], [("k.json", FileContent.corrupt)],
      ⟨0, 0, 0⟩⟩ 0 "k").2.files = [("k.json", FileContent.corrupt)] :=
  c2_corrupt_file_get_misses_and_keeps_file
    ⟨100, 10, [], [], [("k.json", FileContent.corrupt)], ⟨0, 0, 0⟩⟩ 0 "k"
    (by decide) (by decide)

/-- C9 counterexample: the key-to-file-path map is not injective: the
distinct keys `a/b` and `a_b` sanitise to the same file `a_b.json`, so a
`set` on one overwrites the file of the other. -/
theorem c9_counterexample :
    getFilePath "a/b" = getFilePath "a_b" ∧ ("a/b" : String) ≠ "a_b" := by
  decide

/-- C9 (amended): on keys free of `/` and `\` — in particular on every key
`_make_key` derives — sanitisation is the identity, and the key-to-file-path
map is injective: distinct keys get distinct files. -/
theorem c9_path_injective_on_separator_free_keys (k1 k2 : String)
    (h1 : noSlash k1 = true) (h2 : noSlash k2 = true) (hne : k1 ≠ k2) :
    getFilePath k1 ≠ getFilePath k2 := by
  rw [getFilePath_noSlash h1, getFilePath_noSlash h2]
  intro h
  apply hne
  apply str_ext
  have hd := congrArg String.data h
  rw [str_data_append, str_data_append] at hd
  exact List.append_cancel_right hd

/-- C9 witness: distinct separator-free keys map to distinct files. -/
theorem c9_witness : getFilePath "a" ≠ getFilePath "b" :=
  c9_path_injective_on_separator_free_keys "a" "b" (by decide) (by decide)
    (by decide)

section SortLemmas

theorem pairwise_and {α : Type} {R S : α → α → Prop} :
    ∀ {l : List α}, l.Pairwise R → l.Pairwise S →
      l.Pairwise (fun a b => R a b ∧ S a b) := by
  intro l
  induction l with
  | nil => intro _ _; exact List.Pairwise.nil
  | cons hd tl ih =>
    intro hR hS
    rw [List.pairwise_cons] at hR hS ⊢
    exact ⟨fun b hb => ⟨hR.1 b hb, hS.1 b hb⟩, ih hR.2 hS.2⟩

/-- Sorting by key name gives the same list on any permutation of pairs
with distinct names: this is why `sorted(kwargs.items())` canonicalises
the kwargs bag. -/
theorem sortPairs_perm_eq (l1 l2 : List (String × PyVal)) (hp : l1.Perm l2)
    (hnd : (l1.map Prod.fst).Nodup) : sortPairs l1 = sortPairs l2 := by
  haveI hTot : IsTotal (String × PyVal) (fun a b => a.1 ≤ b.1) :=
    ⟨fun a b => le_total a.1 b.1⟩
  haveI hTrans : IsTrans (String × PyVal) (fun a b => a.1 ≤ b.1) :=
    ⟨fun a b c hab hbc => le_trans hab hbc⟩
  haveI hAnti : IsAntisymm (String × PyVal) (fun a b => a.1 < b.1) :=
    ⟨fun a b h1 h2 => (lt_asymm h1 h2).elim⟩
  have hperm : (sortPairs l1).Perm (sortPairs l2) :=
    (List.perm_insertionSort _ l1).trans
      (hp.trans (List.perm_insertionSort _ l2).symm)
  have hnd2 : (l2.map Prod.fst).Nodup := ((hp.map Prod.fst).nodup_iff).1 hnd
  have key : ∀ l : List (String × PyVal), (l.map Prod.fst).Nodup →
      List.Sorted (fun a b : String × PyVal => a.1 < b.1) (sortPairs l) := by
    intro l hl
    have hs : List.Sorted (fun a b : String × PyVal => a.1 ≤ b.1) (sortPairs l) :=
      List.sorted_insertionSort _ l
    have hlnd : ((sortPairs l).map Prod.fst).Nodup :=
      (((List.perm_insertionSort _ l).map Prod.fst).nodup_iff).2 hl
    have hne : (sortPairs l).Pairwise (fun a b => a.1 ≠ b.1) :=
      List.pairwise_map.1 hlnd
    exact (pairwise_and hs hne).imp
      (fun hab => lt_of_le_of_ne hab.1 hab.2)
  exact List.eq_of_perm_of_sorted hperm (key l1 hnd) (key l2 hnd2)

theorem sha256hex_length (m : List Nat) : (sha256hex m).length = 64 := by
  show (sha256hex m).data.length = 64
  simp [sha256hex, hex8]

theorem strTake_length (s : String) (n : Nat) :
    (strTake s n).length = min n s.length := by
  show (s.data.take n).length = min n s.data.length
  exact List.length_take n s.data

end SortLemmas

/-- C6: key derivation is deterministic and order-independent: for any
prefix and any bag of distinctly-named parameters, every permutation of
the parameters yields the same key, and the key has the form
`{prefix}_{digest}` with a 16-character digest. -/
theorem c6_key_derivation_deterministic (pfx : String)
    (kw1 kw2 : List (String × PyVal)) (hp : kw1.Perm kw2)
    (hnd : (kw1.map Prod.fst).Nodup) :
    makeKey pfx kw1 = makeKey pfx kw2 ∧
    ∃ d : String, d.length = 16 ∧ makeKey pfx kw1 = pfx ++ "_" ++ d := by
  constructor
  · unfold makeKey
    rw [sortPairs_perm_eq kw1 kw2 hp hnd]
  · have hlen : (strTake (sha256hex (utf8Bytes (jsonDumps (PyVal.list
        ((sortPairs kw1).map (fun kv => PyVal.list [PyVal.str kv.1, kv.2]))))))
        16).length = 16 := by
      rw [strTake_length, sha256hex_length]
      omega
    exact ⟨_, hlen, rfl⟩

/-- C6 witness: the theorem at the spec's own example
`key(p, [a:1, b:2]) = key(p, [b:2, a:1])`. -/
theorem c6_witness :
    makeKey "p" [("a", PyVal.int 1), ("b", PyVal.int 2)] =
      makeKey "p" [("b", PyVal.int 2), ("a", PyVal.int 1)] ∧
    ∃ d : String, d.length = 16 ∧
      makeKey "p" [("a", PyVal.int 1), ("b", PyVal.int 2)] = "p" ++ "_" ++ d :=
  c6_key_derivation_deterministic "p"
    [("a", PyVal.int 1), ("b", PyVal.int 2)]
    [("b", PyVal.int 2), ("a", PyVal.int 1)]
    (List.Perm.swap ("b", PyVal.int 2) ("a", PyVal.int 1) [])
    (by decide)

section MissStability

/-- If the file-tier half of `get` reports a miss for a key with no
memory-tier entry, a second `get` at the same instant still misses: the
lookup itself never creates a servable entry. -/
theorem getFile_miss_stable (st : LLMCache) (now : Nat) (key : String)
    (hmem : assocGet st.memory key = Option.none)
    (hfnd : (st.files.map Prod.fst).Nodup)
    (h : (LLMCache.getFile st now key).1 = PyVal.none) :
    (LLMCache.get ((LLMCache.getFile st now key).2) now key).1 =
      PyVal.none := by
  cases hf : assocGet st.files (getFilePath key) with
  | none =>
    simp [LLMCache.getFile, LLMCache.get, hmem, hf]
  | some c =>
    cases c with
    | corrupt =>
      simp [LLMCache.getFile, LLMCache.get, hmem, hf]
    | valid e =>
      by_cases hx : LLMCache.isExpired e.expires_at now
      · simp [LLMCache.getFile, LLMCache.get, hmem, hf, hx,
          assocGet_assocRemove_self st.files (getFilePath key) hfnd]
      · have hv : e.value = PyVal.none := by
          simp only [LLMCache.getFile, hf] at h
          simpa [hx] using h
        simp [LLMCache.getFile, LLMCache.get, hf, hx,
          assocGet_assocSet_self, hv]

/-- A `get` that misses leaves the key unservable: repeating the `get` at
the same instant still misses.  (`WFKeys` reflects dict/directory key
uniqueness, which the list model does not enforce by itself.) -/
theorem get_miss_stable (st : LLMCache) (now : Nat) (key : String)
    (hwf : WFKeys st) (h : (LLMCache.get st now key).1 = PyVal.none) :
    (LLMCache.get ((LLMCache.get st now key).2) now key).1 = PyVal.none := by
  cases hm : assocGet st.memory key with
  | none =>
    have hget : LLMCache.get st now key = LLMCache.getFile st now key := by
      simp [LLMCache.get, hm]
    rw [hget] at h ⊢
    exact getFile_miss_stable st now key hm hwf.2 h
  | some p =>
    obtain ⟨v, exp⟩ := p
    by_cases hx : LLMCache.isExpired exp now
    · have hget : LLMCache.get st now key = LLMCache.getFile
          { st with memory := assocRemove st.memory key,
                    access_order := st.access_order.erase key } now key := by
        simp [LLMCache.get, hm, hx]
      rw [hget] at h ⊢
      exact getFile_miss_stable _ now key
        (assocGet_assocRemove_self st.memory key hwf.1) hwf.2 h
    · have hv : v = PyVal.none := by
        simp only [LLMCache.get, hm] at h
        simpa [hx] using h
      have hget : LLMCache.get st now key =
          (v, { st with
            stats := { st.stats with memory_hits := st.stats.memory_hits + 1 },
            access_order := LLMCache.updateAccessOrder st.access_order key }) := by
        simp [LLMCache.get, hm, hx]
      rw [hget]
      simp [LLMCache.get, hm, hx, hv]

end MissStability

/-- C5: a generator that raises inside `get_or_generate` on a cache miss
propagates its exception unchanged to the caller, the resulting state is
exactly the state the lookup alone produced (nothing is written to either
tier by the failed call), and a subsequent `get` for the derived key at
the same instant is still a miss. -/
theorem c5_generator_exception_propagates (st : LLMCache) (now : Nat)
    (pfx err : String) (ttl : Option Nat) (kp : List (String × PyVal))
    (hwf : WFKeys st)
    (hmiss : (LLMCache.get st now (makeKey pfx kp)).1 = PyVal.none) :
    LLMCache.getOrGenerateExc st now pfx (Except.error err) ttl kp =
      LLMCache.ExcResult.raised err (LLMCache.get st now (makeKey pfx kp)).2 ∧
    (LLMCache.get ((LLMCache.get st now (makeKey pfx kp)).2) now
      (makeKey pfx kp)).1 = PyVal.none := by
  constructor
  · unfold LLMCache.getOrGenerateExc
    simp [hmiss]
  · exact get_miss_stable st now (makeKey pfx kp) hwf hmiss

/-- C5 witness: a raising generator on a fresh cache. -/
theorem c5_witness :
    LLMCache.getOrGenerateExc (initCache 100 10) 0 "p" (Except.error "boom")
      Option.none [] =
      LLMCache.ExcResult.raised "boom"
        (LLMCache.get (initCache 100 10) 0 (makeKey "p" [])).2 ∧
    (LLMCache.get ((LLMCache.get (initCache 100 10) 0 (makeKey "p" [])).2) 0
      (makeKey "p" [])).1 = PyVal.none :=
  c5_generator_exception_propagates (initCache 100 10) 0 "p" "boom"
    Option.none [] (by decide) (by decide)

section DigestLemmas

theorem sanChar_nib (n : Nat) : sanChar (nib n) = nib n := by
  unfold nib
  split <;> decide

theorem mem_hex8 {c : Char} {w : Nat} (h : c ∈ hex8 w) : ∃ n, c = nib n := by
  simp only [hex8, List.mem_cons, List.not_mem_nil, or_false] at h
  rcases h with h | h | h | h | h | h | h | h <;> exact ⟨_, h⟩

theorem mem_sha256hex {c : Char} {m : List Nat}
    (h : c ∈ (sha256hex m).data) : ∃ n, c = nib n := by
  simp only [sha256hex, List.mem_append] at h
  rcases h with ((((((h | h) | h) | h) | h) | h) | h) | h <;> exact mem_hex8 h

/-- Sanitisation fixes every character of a hex digest. -/
theorem sanitize_fixes_digest (m : List Nat) (n : Nat) :
    ((strTake (sha256hex m) n).data).map sanChar =
      (strTake (sha256hex m) n).data := by
  have hmem : ∀ c ∈ (strTake (sha256hex m) n).data, sanChar c = c := by
    intro c hc
    have hc2 : c ∈ (sha256hex m).data := List.mem_of_mem_take hc
    obtain ⟨k, hk⟩ := mem_sha256hex hc2
    rw [hk, sanChar_nib]
  calc ((strTake (sha256hex m) n).data).map sanChar
      = ((strTake (sha256hex m) n).data).map id := List.map_congr_left hmem
    _ = _ := List.map_id _

/-- The serialised content `_make_key` hashes for a kwargs bag. -/
def keyContent (kw : List (String × PyVal)) : String :=
  jsonDumps (PyVal.list ((sortPairs kw).map
    (fun kv => PyVal.list [PyVal.str kv.1, kv.2])))

/-- The truncated digest `_make_key` embeds in the key. -/
def keyDigest (kw : List (String × PyVal)) : String :=
  strTake (sha256hex (utf8Bytes (keyContent kw))) 16

theorem makeKey_data (pfx : String) (kw : List (String × PyVal)) :
    (makeKey pfx kw).data = (pfx.data ++ ['_']) ++ (keyDigest kw).data := by
  show ((pfx ++ "_") ++ keyDigest kw).data = _
  rw [str_data_append, str_data_append]

theorem sanitize_makeKey_data (pfx : String) (kw : List (String × PyVal)) :
    (sanitizeKey (makeKey pfx kw)).data =
      (pfx.data.map sanChar ++ ['_']) ++ (keyDigest kw).data := by
  show ((makeKey pfx kw).data.map sanChar) = _
  rw [makeKey_data, List.map_append, List.map_append]
  rw [show (keyDigest kw).data.map sanChar = (keyDigest kw).data from
    sanitize_fixes_digest (utf8Bytes (keyContent kw)) 16]
  rfl

/-- Distinct keys derived by `_make_key` under the same prefix keep
distinct file paths: sanitisation cannot identify them because hex digests
contain no path separator. -/
theorem getFilePath_makeKey_inj (pfx : String)
    (kw1 kw2 : List (String × PyVal)) (h : makeKey pfx kw1 ≠ makeKey pfx kw2) :
    getFilePath (makeKey pfx kw1) ≠ getFilePath (makeKey pfx kw2) := by
  intro heq
  apply h
  have hd := congrArg String.data heq
  unfold getFilePath at hd
  rw [str_data_append, str_data_append] at hd
  have hsan : (sanitizeKey (makeKey pfx kw1)).data =
      (sanitizeKey (makeKey pfx kw2)).data := List.append_cancel_right hd
  rw [sanitize_makeKey_data, sanitize_makeKey_data] at hsan
  apply str_ext
  rw [makeKey_data, makeKey_data]
  exact congrArg (fun l => (pfx.data ++ ['_']) ++ l)
    (List.append_cancel_left hsan)

theorem isExpired_false_of_le {now t n2 : Nat} (h : n2 ≤ now + t) :
    LLMCache.isExpired ((now : Int) + (t : Int)) n2 = false := by
  simp only [LLMCache.isExpired, decide_eq_false_iff_not]
  omega

end DigestLemmas

/-- C1 counterexample: a generator producing `None` defeats memoization:
two successive `get_or_generate` calls with identical prefix and key
params (the second well before the TTL) both invoke the generator, because
the cached `None` is indistinguishable from a miss — so the generator is
not invoked exactly once in total. -/
theorem c1_counterexample :
    (LLMCache.getOrGenerate (initCache 3600 10) 0 "wp" PyVal.none Option.none
      [("a", PyVal.int 1)]).invoked = true ∧
    (LLMCache.getOrGenerate
      (LLMCache.getOrGenerate (initCache 3600 10) 0 "wp" PyVal.none
        Option.none [("a", PyVal.int 1)]).state
      0 "wp" PyVal.none Option.none [("a", PyVal.int 1)]).invoked = true := by
  decide

/-- C1 (amended): starting from a fresh cache, if the generated value is
not `None`, `get_or_generate` memoizes: the first call invokes the
generator and returns its value, a second call with the same prefix and
key params before the TTL elapses does not invoke its generator and
returns the cached value; and a call whose key params derive a different
cache key invokes its generator again. -/
theorem c1_get_or_generate_memoizes (dttl maxE : Nat) (pfx : String)
    (kp kp2 : List (String × PyVal)) (g g2 g3 : PyVal) (ttl : Option Nat)
    (now now2 : Nat)
    (hg : g ≠ PyVal.none)
    (hfresh : now2 ≤ now + LLMCache.resolveTtl dttl ttl)
    (hdiff : makeKey pfx kp2 ≠ makeKey pfx kp) :
    (LLMCache.getOrGenerate (initCache dttl maxE) now pfx g ttl kp).invoked
      = true ∧
    (LLMCache.getOrGenerate (initCache dttl maxE) now pfx g ttl kp).value
      = g ∧
    (LLMCache.getOrGenerate
      (LLMCache.getOrGenerate (initCache dttl maxE) now pfx g ttl kp).state
      now2 pfx g2 ttl kp).invoked = false ∧
    (LLMCache.getOrGenerate
      (LLMCache.getOrGenerate (initCache dttl maxE) now pfx g ttl kp).state
      now2 pfx g2 ttl kp).value = g ∧
    (LLMCache.getOrGenerate
      (LLMCache.getOrGenerate (initCache dttl maxE) now pfx g ttl kp).state
      now2 pfx g3 ttl kp2).invoked = true := by
  have h1 : (LLMCache.get (initCache dttl maxE) now (makeKey pfx kp)).1 =
      PyVal.none := by rw [get_init]
  have hr1 := getOrGenerate_miss (initCache dttl maxE) now pfx g ttl kp h1
  have hstate : (LLMCache.getOrGenerate (initCache dttl maxE) now pfx g ttl
      kp).state =
      ⟨dttl, maxE,
       [(makeKey pfx kp,
         (g, (now : Int) + (LLMCache.resolveTtl dttl ttl : Int)))],
       [makeKey pfx kp],
       [(getFilePath (makeKey pfx kp),
         .valid ⟨g, (now : Int) + (LLMCache.resolveTtl dttl ttl : Int),
           PyVal.int now, PyVal.str (makeKey pfx kp),
           [("params", PyVal.dict kp)]⟩)],
       ⟨0, 0, 1⟩⟩ := by
    rw [hr1, get_init]
    rfl
  have hget2 : (LLMCache.get (LLMCache.getOrGenerate (initCache dttl maxE)
      now pfx g ttl kp).state now2 (makeKey pfx kp)).1 = g := by
    rw [hstate]
    simp [LLMCache.get, assocGet, isExpired_false_of_le hfresh]
  have hget3 : (LLMCache.get (LLMCache.getOrGenerate (initCache dttl maxE)
      now pfx g ttl kp).state now2 (makeKey pfx kp2)).1 = PyVal.none := by
    have hkeq : ¬ (makeKey pfx kp = makeKey pfx kp2) := fun hh => hdiff hh.symm
    have hpath : ¬ (getFilePath (makeKey pfx kp) =
        getFilePath (makeKey pfx kp2)) :=
      getFilePath_makeKey_inj pfx kp kp2 (fun hh => hdiff hh.symm)
    rw [hstate]
    simp [LLMCache.get, LLMCache.getFile, assocGet, hkeq, hpath]
  have hr2 := getOrGenerate_hit (LLMCache.getOrGenerate (initCache dttl maxE)
    now pfx g ttl kp).state now2 pfx g2 ttl kp (by rw [hget2]; exact hg)
  have hr3 := getOrGenerate_miss (LLMCache.getOrGenerate (initCache dttl maxE)
    now pfx g ttl kp).state now2 pfx g3 ttl kp2 hget3
  refine ⟨by rw [hr1], by rw [hr1], by rw [hr2], ?_, by rw [hr3]⟩
  rw [hr2]
  exact hget2

/-- C1 witness: the amended theorem at concrete inputs (capacity 10,
default TTL 3600, params `a=1` vs `a=2`, second call one second later). -/
theorem c1_witness :
    (LLMCache.getOrGenerate (initCache 3600 10) 0 "p" (PyVal.str "v")
      Option.none [("a", PyVal.int 1)]).invoked = true ∧
    (LLMCache.getOrGenerate (initCache 3600 10) 0 "p" (PyVal.str "v")
      Option.none [("a", PyVal.int 1)]).value = PyVal.str "v" ∧
    (LLMCache.getOrGenerate
      (LLMCache.getOrGenerate (initCache 3600 10) 0 "p" (PyVal.str "v")
        Option.none [("a", PyVal.int 1)]).state
      1 "p" (PyVal.str "w") Option.none [("a", PyVal.int 1)]).invoked
      = false ∧
    (LLMCache.getOrGenerate
      (LLMCache.getOrGenerate (initCache 3600 10) 0 "p" (PyVal.str "v")
        Option.none [("a", PyVal.int 1)]).state
      1 "p" (PyVal.str "w") Option.none [("a", PyVal.int 1)]).value
      = PyVal.str "v" ∧
    (LLMCache.getOrGenerate
      (LLMCache.getOrGenerate (initCache 3600 10) 0 "p" (PyVal.str "v")
        Option.none [("a", PyVal.int 1)]).state
      1 "p" (PyVal.str "x") Option.none [("a", PyVal.int 2)]).invoked
      = true :=
  c1_get_or_generate_memoizes 3600 10 "p" [("a", PyVal.int 1)]
    [("a", PyVal.int 2)] (PyVal.str "v") (PyVal.str "w") (PyVal.str "x")
    Option.none 0 1 (by decide) (by decide) (by decide)

/-- One public cache operation, for stating properties of arbitrary
operation sequences. -/
inductive CacheOp where
  | opGet (now : Nat) (key : String)
  | opSet (now : Nat) (key : String) (value : PyVal) (ttl : Option Nat)
      (metadata : List (String × PyVal))
  | opInvalidate (key : String)
  | opInvalidatePfx (pfx : String)

/-- Apply one operation to the cache state. -/
def applyOp (st : LLMCache) : CacheOp → LLMCache
  | .opGet now key => (LLMCache.get st now key).2
  | .opSet now key v ttl md => LLMCache.set st now key v ttl md
  | .opInvalidate key => LLMCache.invalidate st key
  | .opInvalidatePfx pfx => (LLMCache.invalidatePrefix st pfx).2

/-- Run a sequence of operations. -/
def runOps (st : LLMCache) (ops : List CacheOp) : LLMCache :=
  ops.foldl applyOp st

/-- The memory-tier invariant of the spec: bounded size, the recency
structure holds exactly the memory keys (no orphans, no duplicates). -/
def MemInv (st : LLMCache) : Prop :=
  st.memory.length ≤ st.max_memory_entries ∧
  (∀ k ∈ st.memory.map Prod.fst, k ∈ st.access_order) ∧
  (∀ k ∈ st.access_order, k ∈ st.memory.map Prod.fst) ∧
  (st.memory.map Prod.fst).Nodup ∧
  st.access_order.Nodup

instance (st : LLMCache) : Decidable (MemInv st) := by
  unfold MemInv; infer_instance

section EvictLemmas

theorem length_assocSet_le {α : Type} (l : List (String × α)) (k : String)
    (v : α) : (assocSet l k v).length ≤ l.length + 1 := by
  induction l with
  | nil => simp [assocSet]
  | cons hd tl ih =>
    obtain ⟨k1, v1⟩ := hd
    by_cases h : k1 = k <;> simp [assocSet, h] <;> omega

theorem length_assocRemove_le {α : Type} (l : List (String × α))
    (k : String) : (assocRemove l k).length ≤ l.length := by
  induction l with
  | nil => simp [assocRemove]
  | cons hd tl ih =>
    obtain ⟨k1, v1⟩ := hd
    by_cases h : k1 = k <;> simp [assocRemove, h] <;> omega

theorem length_assocRemove_mem {α : Type} (l : List (String × α))
    (k : String) (h : k ∈ l.map Prod.fst) :
    (assocRemove l k).length = l.length - 1 := by
  induction l with
  | nil => simp at h
  | cons hd tl ih =>
    obtain ⟨k1, v1⟩ := hd
    by_cases h1 : k1 = k
    · simp [assocRemove, h1]
    · have hk : k ∈ tl.map Prod.fst := by
        simp only [List.map_cons, List.mem_cons] at h
        rcases h with h | h
        · exact absurd h.symm h1
        · exact h
      have hlen : 1 ≤ tl.length := by
        rcases tl with _ | ⟨hd2, tl2⟩
        · simp at hk
        · simp
      simp only [assocRemove, h1, if_false, List.length_cons, ih hk]
      omega

/-- Full behaviour of `_evict_if_needed` under the memory-tier invariant:
the surviving memory is strictly below capacity (so one insertion cannot
exceed it), and the key/recency correspondence survives. -/
theorem evict_spec (maxE : Nat) (order : List String)
    (mem : List (String × PyVal × Int))
    (hmax : 1 ≤ maxE)
    (hsub : ∀ k ∈ mem.map Prod.fst, k ∈ order)
    (hrev : ∀ k ∈ order, k ∈ mem.map Prod.fst)
    (hnd : (mem.map Prod.fst).Nodup) (hndo : order.Nodup) :
    (LLMCache.evictIfNeeded maxE order mem).1.length < maxE ∧
    (∀ k ∈ (LLMCache.evictIfNeeded maxE order mem).1.map Prod.fst,
      k ∈ (LLMCache.evictIfNeeded maxE order mem).2) ∧
    (∀ k ∈ (LLMCache.evictIfNeeded maxE order mem).2,
      k ∈ (LLMCache.evictIfNeeded maxE order mem).1.map Prod.fst) ∧
    ((LLMCache.evictIfNeeded maxE order mem).1.map Prod.fst).Nodup ∧
    (LLMCache.evictIfNeeded maxE order mem).2.Nodup := by
  induction order generalizing mem with
  | nil =>
    have hm : mem = [] := by
      cases hmem : mem with
      | nil => rfl
      | cons hd tl =>
        exfalso
        have : hd.1 ∈ mem.map Prod.fst := by simp [hmem]
        simpa using hsub hd.1 this
    subst hm
    simp [LLMCache.evictIfNeeded]
    omega
  | cons oldest rest ih =>
    by_cases hlt : mem.length < maxE
    · have heq2 : LLMCache.evictIfNeeded maxE (oldest :: rest) mem =
          (mem, oldest :: rest) := by
        simp [LLMCache.evictIfNeeded, hlt]
      rw [heq2]
      exact ⟨hlt, hsub, hrev, hnd, hndo⟩
    · have heq : LLMCache.evictIfNeeded maxE (oldest :: rest) mem =
          LLMCache.evictIfNeeded maxE rest (assocRemove mem oldest) := by
        simp [LLMCache.evictIfNeeded, hlt]
      rw [heq]
      have hndo2 : rest.Nodup := (List.nodup_cons.1 hndo).2
      have holdnot : oldest ∉ rest := (List.nodup_cons.1 hndo).1
      apply ih
      · intro k hk
        rw [map_fst_assocRemove] at hk
        have hk2 := (List.Nodup.mem_erase_iff hnd).1 hk
        have := hsub k hk2.2
        simp only [List.mem_cons] at this
        rcases this with h | h
        · exact absurd h hk2.1
        · exact h
      · intro k hk
        have hko : k ∈ oldest :: rest := List.mem_cons_of_mem _ hk
        have hkm := hrev k hko
        rw [map_fst_assocRemove]
        refine (List.Nodup.mem_erase_iff hnd).2 ⟨?_, hkm⟩
        intro hkeq
        exact holdnot (hkeq ▸ hk)
      · rw [map_fst_assocRemove]
        exact List.Nodup.erase oldest hnd
      · exact hndo2

/-- Inserting a key after eviction (the shared tail of `set` and of the
`get` promotion path) preserves the memory-tier invariant. -/
theorem insert_core_inv (maxE : Nat) (order : List String)
    (mem : List (String × PyVal × Int)) (key : String) (v : PyVal × Int)
    (hmax : 1 ≤ maxE)
    (hsub : ∀ k ∈ mem.map Prod.fst, k ∈ order)
    (hrev : ∀ k ∈ order, k ∈ mem.map Prod.fst)
    (hnd : (mem.map Prod.fst).Nodup) (hndo : order.Nodup) :
    (let p := LLMCache.evictIfNeeded maxE order mem
     let mem2 := assocSet p.1 key v
     let order2 := LLMCache.updateAccessOrder p.2 key
     mem2.length ≤ maxE ∧
     (∀ k ∈ mem2.map Prod.fst, k ∈ order2) ∧
     (∀ k ∈ order2, k ∈ mem2.map Prod.fst) ∧
     (mem2.map Prod.fst).Nodup ∧ order2.Nodup) := by
  obtain ⟨hlen, hsub1, hrev1, hnd1, hndo1⟩ :=
    evict_spec maxE order mem hmax hsub hrev hnd hndo
  set p := LLMCache.evictIfNeeded maxE order mem with hp
  constructor
  · calc (assocSet p.1 key v).length ≤ p.1.length + 1 :=
        length_assocSet_le p.1 key v
      _ ≤ maxE := by omega
  constructor
  · intro k hk
    rw [map_fst_assocSet] at hk
    unfold LLMCache.updateAccessOrder
    by_cases hkey : k = key
    · simp [hkey]
    · have hkp : k ∈ p.1.map Prod.fst := by
        by_cases hmem : key ∈ p.1.map Prod.fst
        · simpa [hmem] using hk
        · simp only [hmem, if_false] at hk
          rcases List.mem_append.1 hk with h | h
          · exact h
          · simp only [List.mem_singleton] at h
            exact absurd h hkey
      have := hsub1 k hkp
      exact List.mem_append.2 (Or.inl ((List.mem_erase_of_ne hkey).2 this))
  constructor
  · intro k hk
    unfold LLMCache.updateAccessOrder at hk
    rw [map_fst_assocSet]
    rcases List.mem_append.1 hk with h | h
    · have hko : k ∈ p.2 := List.mem_of_mem_erase h
      have := hrev1 k hko
      by_cases hmem : key ∈ p.1.map Prod.fst <;> simp [hmem, this]
    · simp only [List.mem_singleton] at h
      subst h
      by_cases hmem : k ∈ p.1.map Prod.fst <;> simp [hmem]
  constructor
  · rw [map_fst_assocSet]
    by_cases hmem : key ∈ p.1.map Prod.fst
    · simpa [hmem] using hnd1
    · simp only [hmem, if_false]
      exact List.Nodup.append hnd1 (List.nodup_singleton key)
        (by simp [List.disjoint_singleton, hmem])
  · unfold LLMCache.updateAccessOrder
    refine List.Nodup.append (List.Nodup.erase key hndo1)
      (List.nodup_singleton key) ?_
    rw [List.disjoint_singleton]
    intro hmem
    exact absurd ((List.Nodup.mem_erase_iff hndo1).1 hmem).1 (by simp)

end EvictLemmas

section InvPreservation

theorem memInv_set (st : LLMCache) (now : Nat) (key : String) (v : PyVal)
    (ttl : Option Nat) (md : List (String × PyVal))
    (h : MemInv st) (hmax : 1 ≤ st.max_memory_entries) :
    MemInv (LLMCache.set st now key v ttl md) := by
  obtain ⟨_, hsub, hrev, hnd, hndo⟩ := h
  have hc := insert_core_inv st.max_memory_entries st.access_order st.memory
    key (v, (now : Int) + (LLMCache.resolveTtl st.default_ttl ttl : Int))
    hmax hsub hrev hnd hndo
  exact hc

theorem memInv_getFile (st : LLMCache) (now : Nat) (key : String)
    (h : MemInv st) (hmax : 1 ≤ st.max_memory_entries) :
    MemInv ((LLMCache.getFile st now key).2) := by
  obtain ⟨hlen, hsub, hrev, hnd, hndo⟩ := h
  simp only [LLMCache.getFile]
  cases hf : assocGet st.files (getFilePath key) with
  | none => exact ⟨hlen, hsub, hrev, hnd, hndo⟩
  | some c =>
    cases c with
    | corrupt => exact ⟨hlen, hsub, hrev, hnd, hndo⟩
    | valid e =>
      by_cases hx : LLMCache.isExpired e.expires_at now
      · simp only [hx, if_true, if_pos]
        exact ⟨hlen, hsub, hrev, hnd, hndo⟩
      · simp only [hx, Bool.false_eq_true, if_false]
        exact insert_core_inv st.max_memory_entries st.access_order st.memory
          key (e.value, e.expires_at) hmax hsub hrev hnd hndo

theorem memInv_removal (st : LLMCache) (key : String) (h : MemInv st) :
    MemInv { st with memory := assocRemove st.memory key,
                     access_order := st.access_order.erase key } := by
  obtain ⟨hlen, hsub, hrev, hnd, hndo⟩ := h
  refine ⟨?_, ?_, ?_, ?_, ?_⟩
  · calc (assocRemove st.memory key).length ≤ st.memory.length :=
        length_assocRemove_le st.memory key
      _ ≤ st.max_memory_entries := hlen
  · intro k hk
    rw [map_fst_assocRemove] at hk
    have hk2 := (List.Nodup.mem_erase_iff hnd).1 hk
    exact (List.mem_erase_of_ne hk2.1).2 (hsub k hk2.2)
  · intro k hk
    have hk2 := (List.Nodup.mem_erase_iff hndo).1 hk
    rw [map_fst_assocRemove]
    exact (List.mem_erase_of_ne hk2.1).2 (hrev k hk2.2)
  · rw [map_fst_assocRemove]
    exact List.Nodup.erase key hnd
  · exact List.Nodup.erase key hndo

theorem memInv_get (st : LLMCache) (now : Nat) (key : String)
    (h : MemInv st) (hmax : 1 ≤ st.max_memory_entries) :
    MemInv ((LLMCache.get st now key).2) := by
  simp only [LLMCache.get]
  cases hm : assocGet st.memory key with
  | none => exact memInv_getFile st now key h hmax
  | some p =>
    obtain ⟨v, exp⟩ := p
    obtain ⟨hlen, hsub, hrev, hnd, hndo⟩ := h
    by_cases hx : LLMCache.isExpired exp now
    · simp only [hx, if_true, if_pos]
      exact memInv_getFile _ now key
        (memInv_removal st key ⟨hlen, hsub, hrev, hnd, hndo⟩) hmax
    · simp only [hx, Bool.false_eq_true, if_false]
      have hkmem : key ∈ st.memory.map Prod.fst :=
        assocGet_isSome_mem st.memory key (by simp [hm])
      refine ⟨hlen, ?_, ?_, hnd, ?_⟩
      · intro k hk
        unfold LLMCache.updateAccessOrder
        by_cases hkey : k = key
        · simp [hkey]
        · exact List.mem_append.2
            (Or.inl ((List.mem_erase_of_ne hkey).2 (hsub k hk)))
      · intro k hk
        unfold LLMCache.updateAccessOrder at hk
        rcases List.mem_append.1 hk with hh | hh
        · exact hrev k (List.mem_of_mem_erase hh)
        · simp only [List.mem_singleton] at hh
          exact hh ▸ hkmem
      · unfold LLMCache.updateAccessOrder
        refine List.Nodup.append (List.Nodup.erase key hndo)
          (List.nodup_singleton key) ?_
        rw [List.disjoint_singleton]
        intro hmem
        exact absurd ((List.Nodup.mem_erase_iff hndo).1 hmem).1 (by simp)

theorem memInv_invalidate (st : LLMCache) (key : String) (h : MemInv st) :
    MemInv (LLMCache.invalidate st key) :=
  memInv_removal st key h

theorem map_fst_filter {α : Type} (l : List (String × α)) (p : String → Bool) :
    (l.filter (fun e => p e.1)).map Prod.fst = (l.map Prod.fst).filter p := by
  induction l with
  | nil => simp
  | cons hd tl ih =>
    obtain ⟨k1, v1⟩ := hd
    by_cases hp : p k1 <;> simp [List.filter_cons, hp, ih]

theorem mem_foldl_erase {x : String} (ks : List String) (o : List String)
    (hx : x ∈ o) (hnx : x ∉ ks) :
    x ∈ ks.foldl (fun o k => o.erase k) o := by
  induction ks generalizing o with
  | nil => exact hx
  | cons k rest ih =>
    simp only [List.mem_cons, not_or] at hnx
    exact ih (o.erase k) ((List.mem_erase_of_ne hnx.1).2 hx) hnx.2

theorem foldl_erase_subset {x : String} (ks : List String) (o : List String)
    (hx : x ∈ ks.foldl (fun o k => o.erase k) o) : x ∈ o := by
  induction ks generalizing o with
  | nil => exact hx
  | cons k rest ih =>
    exact List.mem_of_mem_erase (ih (o.erase k) hx)

theorem nodup_foldl_erase (ks : List String) (o : List String)
    (h : o.Nodup) : (ks.foldl (fun o k => o.erase k) o).Nodup := by
  induction ks generalizing o with
  | nil => exact h
  | cons k rest ih => exact ih (o.erase k) (List.Nodup.erase k h)

theorem not_mem_foldl_erase_aux {x : String} (ks : List String)
    (o : List String) (hx : x ∉ o) :
    x ∉ ks.foldl (fun o k => o.erase k) o := by
  induction ks generalizing o with
  | nil => exact hx
  | cons k rest ih =>
    exact ih (o.erase k) (fun hh => hx (List.mem_of_mem_erase hh))

theorem not_mem_foldl_erase {x : String} (ks : List String) (o : List String)
    (hnd : o.Nodup) (hx : x ∈ ks) :
    x ∉ ks.foldl (fun o k => o.erase k) o := by
  induction ks generalizing o with
  | nil => simp at hx
  | cons k rest ih =>
    rcases List.mem_cons.1 hx with hh | hh
    · subst hh
      apply not_mem_foldl_erase_aux rest (o.erase x)
      intro hmem
      exact absurd ((List.Nodup.mem_erase_iff hnd).1 hmem).1 (by simp)
    · exact ih (o.erase k) (List.Nodup.erase k hnd) hh

theorem memInv_invalidatePrefix (st : LLMCache) (pfx : String)
    (h : MemInv st) : MemInv ((LLMCache.invalidatePrefix st pfx).2) := by
  obtain ⟨hlen, hsub, hrev, hnd, hndo⟩ := h
  simp only [LLMCache.invalidatePrefix]
  refine ⟨?_, ?_, ?_, ?_, ?_⟩
  · calc (st.memory.filter
        (fun e => !(pyStartsWith e.1 (pfx ++ "_")))).length ≤
          st.memory.length := List.length_filter_le _ _
      _ ≤ st.max_memory_entries := hlen
  · intro k hk
    have hfil : (st.memory.filter
        (fun e => !(pyStartsWith e.1 (pfx ++ "_")))).map Prod.fst =
        (st.memory.map Prod.fst).filter (fun x => !(pyStartsWith x (pfx ++ "_"))) :=
      map_fst_filter st.memory (fun x => !(pyStartsWith x (pfx ++ "_")))
    rw [hfil, List.mem_filter] at hk
    apply mem_foldl_erase _ _ (hsub k hk.1)
    intro hmem
    rw [List.mem_filter] at hmem
    rw [hmem.2] at hk
    simpa using hk.2
  · intro k hk
    have hko := foldl_erase_subset _ _ hk
    have hkm := hrev k hko
    have hfil : (st.memory.filter
        (fun e => !(pyStartsWith e.1 (pfx ++ "_")))).map Prod.fst =
        (st.memory.map Prod.fst).filter (fun x => !(pyStartsWith x (pfx ++ "_"))) :=
      map_fst_filter st.memory (fun x => !(pyStartsWith x (pfx ++ "_")))
    rw [hfil, List.mem_filter]
    refine ⟨hkm, ?_⟩
    by_cases hmatch : pyStartsWith k (pfx ++ "_")
    · exfalso
      have hkrem : k ∈ (st.memory.map Prod.fst).filter
          (fun x => pyStartsWith x (pfx ++ "_")) :=
        List.mem_filter.2 ⟨hkm, hmatch⟩
      exact not_mem_foldl_erase _ _ hndo hkrem hk
    · simpa using hmatch
  · dsimp only
    rw [map_fst_filter st.memory (fun x => !(pyStartsWith x (pfx ++ "_")))]
    exact List.Nodup.filter _ hnd
  · exact nodup_foldl_erase _ _ hndo

theorem getFile_config (st : LLMCache) (now : Nat) (key : String) :
    (LLMCache.getFile st now key).2.max_memory_entries =
      st.max_memory_entries := by
  simp only [LLMCache.getFile]
  cases assocGet st.files (getFilePath key) with
  | none => rfl
  | some c =>
    cases c with
    | corrupt => rfl
    | valid e =>
      by_cases hx : LLMCache.isExpired e.expires_at now <;> simp [hx]

theorem get_config (st : LLMCache) (now : Nat) (key : String) :
    (LLMCache.get st now key).2.max_memory_entries =
      st.max_memory_entries := by
  simp only [LLMCache.get]
  cases assocGet st.memory key with
  | none => exact getFile_config st now key
  | some p =>
    obtain ⟨v, exp⟩ := p
    by_cases hx : LLMCache.isExpired exp now <;> simp [hx, getFile_config]

theorem applyOp_config (st : LLMCache) (op : CacheOp) :
    (applyOp st op).max_memory_entries = st.max_memory_entries := by
  cases op with
  | opGet now key => exact get_config st now key
  | opSet now key v ttl md => rfl
  | opInvalidate key => rfl
  | opInvalidatePfx pfx => rfl

theorem memInv_applyOp (st : LLMCache) (op : CacheOp) (h : MemInv st)
    (hmax : 1 ≤ st.max_memory_entries) : MemInv (applyOp st op) := by
  cases op with
  | opGet now key => exact memInv_get st now key h hmax
  | opSet now key v ttl md => exact memInv_set st now key v ttl md h hmax
  | opInvalidate key => exact memInv_invalidate st key h
  | opInvalidatePfx pfx => exact memInv_invalidatePrefix st pfx h

theorem memInv_runOps (ops : List CacheOp) (st : LLMCache) (h : MemInv st)
    (hmax : 1 ≤ st.max_memory_entries) :
    MemInv (runOps st ops) ∧
    (runOps st ops).max_memory_entries = st.max_memory_entries := by
  induction ops generalizing st with
  | nil => exact ⟨h, rfl⟩
  | cons op rest ih =>
    have h1 := memInv_applyOp st op h hmax
    have h2 := applyOp_config st op
    have h3 := ih (applyOp st op) h1 (h2 ▸ hmax)
    exact ⟨h3.1, h3.2.trans h2⟩

theorem memInv_init (d m : Nat) : MemInv (initCache d m) := by
  refine ⟨Nat.zero_le m, ?_, ?_, List.nodup_nil, List.nodup_nil⟩ <;>
    intro k hk <;> simp [initCache] at hk

end InvPreservation

/-- C3 counterexample: with the configured maximum `max_memory_entries = 0`,
a single `set` leaves one entry in the memory tier, exceeding the maximum:
`_evict_if_needed` stops when the access order is exhausted and the
insertion still happens. -/
theorem c3_counterexample :
    (initCache 100 0).max_memory_entries = 0 ∧
    (LLMCache.set (initCache 100 0) 0 "k" (PyVal.str "v") Option.none
      []).memory.length = 1 := by decide

/-- C3 (amended): for every configured maximum `max_memory_entries ≥ 1`
and every sequence of get/set/invalidate/invalidate-prefix operations from
a fresh cache, the memory tier never holds more than the maximum; moreover
under the memory-tier invariant the post-eviction pre-insertion memory is
strictly below capacity (so the bound holds even transiently, eviction
happening before insertion), and when the tier is exactly at capacity the
evicted entry is the head of the access order — the least recently used. -/
theorem c3_memory_bounded (dttl maxE : Nat) (hmax : 1 ≤ maxE) :
    (∀ ops : List CacheOp,
      (runOps (initCache dttl maxE) ops).memory.length ≤ maxE) ∧
    (∀ st : LLMCache, MemInv st → 1 ≤ st.max_memory_entries →
      (LLMCache.evictIfNeeded st.max_memory_entries st.access_order
        st.memory).1.length < st.max_memory_entries) ∧
    (∀ (st : LLMCache) (k : String) (rest : List String), MemInv st →
      st.memory.length = st.max_memory_entries →
      st.access_order = k :: rest →
      (LLMCache.evictIfNeeded st.max_memory_entries st.access_order
        st.memory).1 = assocRemove st.memory k) := by
  refine ⟨?_, ?_, ?_⟩
  · intro ops
    have h := memInv_runOps ops (initCache dttl maxE) (memInv_init dttl maxE)
      hmax
    calc (runOps (initCache dttl maxE) ops).memory.length ≤
        (runOps (initCache dttl maxE) ops).max_memory_entries := h.1.1
      _ = maxE := h.2
  · intro st hinv hm
    obtain ⟨_, hsub, hrev, hnd, hndo⟩ := hinv
    exact (evict_spec st.max_memory_entries st.access_order st.memory hm hsub
      hrev hnd hndo).1
  · intro st k rest hinv hfull horder
    obtain ⟨_, hsub, hrev, hnd, hndo⟩ := hinv
    have hkm : k ∈ st.memory.map Prod.fst := by
      apply hrev
      rw [horder]
      simp
    have hpos : 1 ≤ st.memory.length := by
      rcases hm : st.memory with _ | ⟨hd, tl⟩
      · rw [hm] at hkm; simp at hkm
      · simp
    have hnotlt : ¬ st.memory.length < st.max_memory_entries := by omega
    have hlen2 : (assocRemove st.memory k).length <
        st.max_memory_entries := by
      rw [length_assocRemove_mem st.memory k hkm]
      omega
    rw [horder]
    have hstep : LLMCache.evictIfNeeded st.max_memory_entries (k :: rest)
        st.memory = LLMCache.evictIfNeeded st.max_memory_entries rest
          (assocRemove st.memory k) := by
      simp [LLMCache.evictIfNeeded, hnotlt]
    rw [hstep]
    cases rest with
    | nil => simp [LLMCache.evictIfNeeded]
    | cons r rs =>
      simp [LLMCache.evictIfNeeded, hlen2]

/-- C3 witness: the amended theorem at capacity 1 over a concrete
operation sequence, and at a concrete full state. -/
theorem c3_witness :
    (runOps (initCache 100 1)
      [CacheOp.opSet 0 "a" (PyVal.int 1) Option.none [],
       CacheOp.opSet 1 "b" (PyVal.int 2) Option.none [],
       CacheOp.opGet 2 "a",
       CacheOp.opInvalidate "b",
       CacheOp.opInvalidatePfx "a"]).memory.length ≤ 1 ∧
    (LLMCache.evictIfNeeded (⟨100, 1, [("a", (PyVal.int 1, 50))], ["a"], [],
      ⟨0, 0, 0⟩⟩ : LLMCache).max_memory_entries
      (⟨100, 1, [("a", (PyVal.int 1, 50))], ["a"], [],
        ⟨0, 0, 0⟩⟩ : LLMCache).access_order
      (⟨100, 1, [("a", (PyVal.int 1, 50))], ["a"], [],
        ⟨0, 0, 0⟩⟩ : LLMCache).memory).1 =
      assocRemove (⟨100, 1, [("a", (PyVal.int 1, 50))], ["a"], [],
        ⟨0, 0, 0⟩⟩ : LLMCache).memory "a" :=
  ⟨(c3_memory_bounded 100 1 (by decide)).1 _,
   (c3_memory_bounded 100 1 (by decide)).2.2
     ⟨100, 1, [("a", (PyVal.int 1, 50))], ["a"], [], ⟨0, 0, 0⟩⟩ "a" []
     (by decide) (by decide) rfl⟩

section GlobLemmas

/-- For a key free of path separators, its file `key.json` matches the
pattern `{prefix}_*.json` exactly when the key starts with `{prefix}_`. -/
theorem globMatch_json (pfx key : String) (hk : noSlash key = true) :
    LLMCache.globMatch pfx (key ++ ".json") = pyStartsWith key (pfx ++ "_") := by
  have hdata : (key ++ ".json").data = key.data ++ (".json" : String).data :=
    str_data_append key ".json"
  have hlen5 : (".json" : String).data.length = 5 := by decide
  cases hsw : pyStartsWith key (pfx ++ "_") with
  | true =>
    have hpre : (pfx ++ "_").data <+: key.data := by
      unfold pyStartsWith at hsw
      exact List.isPrefixOf_iff_prefix.1 hsw
    have c1 : pyStartsWith (key ++ ".json") (pfx ++ "_") = true := by
      unfold pyStartsWith
      rw [hdata]
      exact List.isPrefixOf_iff_prefix.2
        (hpre.trans (key.data.prefix_append _))
    have c2 : pyEndsWith (key ++ ".json") ".json" = true := by
      unfold pyEndsWith
      rw [hdata]
      exact List.isSuffixOf_iff_suffix.2 (List.suffix_append key.data _)
    have c3 : (pfx ++ "_").length + 5 ≤ (key ++ ".json").length := by
      show (pfx ++ "_").data.length + 5 ≤ (key ++ ".json").data.length
      rw [hdata, List.length_append, hlen5]
      have := hpre.length_le
      omega
    have c4 : (((key ++ ".json").data.take ((key ++ ".json").data.length - 5)).drop
        (pfx ++ "_").length).all (fun c => !(c = '/')) = true := by
      rw [hdata, List.length_append, hlen5]
      have hn : key.data.length + 5 - 5 = key.data.length := by omega
      rw [hn, List.take_left]
      rw [List.all_eq_true]
      intro c hc
      have hck : c ∈ key.data := List.mem_of_mem_drop hc
      unfold noSlash at hk
      rw [List.all_eq_true] at hk
      have hc2 := hk c hck
      simp only [Bool.not_eq_true', Bool.or_eq_false_iff,
        decide_eq_false_iff_not] at hc2
      simp [hc2.1]
    simp only [LLMCache.globMatch]
    rw [c1, c2, c4, decide_eq_true c3]
    rfl
  | false =>
    by_contra hne
    have hgm : LLMCache.globMatch pfx (key ++ ".json") = true := by
      cases hgm2 : LLMCache.globMatch pfx (key ++ ".json") with
      | true => rfl
      | false => simp [hgm2] at hne
    unfold LLMCache.globMatch at hgm
    simp only [Bool.and_eq_true, decide_eq_true_eq] at hgm
    obtain ⟨⟨⟨h1, h2⟩, h3⟩, h4⟩ := hgm
    have hpre : (pfx ++ "_").data <+: (key.data ++ (".json" : String).data) := by
      unfold pyStartsWith at h1
      rw [hdata] at h1
      exact List.isPrefixOf_iff_prefix.1 h1
    have hlen : (pfx ++ "_").data.length ≤ key.data.length := by
      have h3d : (pfx ++ "_").data.length + 5 ≤ (key ++ ".json").data.length :=
        h3
      rw [hdata, List.length_append, hlen5] at h3d
      omega
    have hpk : (pfx ++ "_").data <+: key.data :=
      List.prefix_of_prefix_length_le hpre (key.data.prefix_append _) hlen
    have : pyStartsWith key (pfx ++ "_") = true := by
      unfold pyStartsWith
      exact List.isPrefixOf_iff_prefix.2 hpk
    rw [hsw] at this
    exact absurd this (by simp)

theorem invalidatePrefix_memory (st : LLMCache) (pfx key : String) :
    assocGet ((LLMCache.invalidatePrefix st pfx).2).memory key =
      if pyStartsWith key (pfx ++ "_") then Option.none
      else assocGet st.memory key := by
  simp only [LLMCache.invalidatePrefix]
  exact assocGet_filter_not st.memory
    (fun x => pyStartsWith x (pfx ++ "_")) key

theorem invalidatePrefix_files (st : LLMCache) (pfx name : String) :
    assocGet ((LLMCache.invalidatePrefix st pfx).2).files name =
      if LLMCache.globMatch pfx name then Option.none
      else assocGet st.files name := by
  simp only [LLMCache.invalidatePrefix]
  exact assocGet_filter_not st.files (fun x => LLMCache.globMatch pfx x) name

theorem getFile_value_congr (st1 st2 : LLMCache) (now : Nat) (key : String)
    (h : assocGet st1.files (getFilePath key) =
      assocGet st2.files (getFilePath key)) :
    (LLMCache.getFile st1 now key).1 = (LLMCache.getFile st2 now key).1 := by
  simp only [LLMCache.getFile]
  rw [← h]
  cases assocGet st1.files (getFilePath key) with
  | none => rfl
  | some c =>
    cases c with
    | corrupt => rfl
    | valid e =>
      by_cases hx : LLMCache.isExpired e.expires_at now <;> simp [hx]

theorem get_value_congr (st1 st2 : LLMCache) (now : Nat) (key : String)
    (hm : assocGet st1.memory key = assocGet st2.memory key)
    (hf : assocGet st1.files (getFilePath key) =
      assocGet st2.files (getFilePath key)) :
    (LLMCache.get st1 now key).1 = (LLMCache.get st2 now key).1 := by
  simp only [LLMCache.get]
  rw [← hm]
  cases assocGet st1.memory key with
  | none => exact getFile_value_congr st1 st2 now key hf
  | some p =>
    obtain ⟨v, exp⟩ := p
    by_cases hx : LLMCache.isExpired exp now
    · simp only [hx, if_true, if_pos]
      exact getFile_value_congr _ _ now key (by simpa using hf)
    · simp [hx]

end GlobLemmas

/-- C8 counterexample: the key `p/a` does not start with `p_`, yet
`invalidate_prefix("p")` deletes its cache file: the memory tier is
filtered by raw key but the file tier is globbed by sanitised file name,
so a key outside the prefix loses its file — the claim's "removes no other
key" fails. -/
theorem c8_counterexample :
    (let st := LLMCache.set (initCache 100 10) 0 "p/a" (PyVal.str "v")
      Option.none []
     pyStartsWith "p/a" ("p" ++ "_") = false ∧
     assocGet st.files (getFilePath "p/a") ≠ Option.none ∧
     assocGet ((LLMCache.invalidatePrefix st "p").2).files
       (getFilePath "p/a") = Option.none) := by decide

/-- C8 (amended): for a glob-literal prefix (no metacharacters, no path
separators), `invalidate_prefix` removes from the memory tier exactly the
keys starting with `{prefix}_` and from the file tier exactly the files
matching `{prefix}_*.json`; for separator-free keys the two criteria
coincide, so every such key starting with `{prefix}_` is a miss afterwards
while every other separator-free key keeps its `get` result — in
particular, after `set p_a 1; set p_b 2; set q_a 3`, invalidating `p`
removes `p_a` and `p_b` and leaves `q_a` retrievable.  (Keys containing
`/` or `\` can lose their file despite not bearing the prefix.) -/
theorem c8_invalidate_prefix_separator_free (st : LLMCache) (pfx : String)
    (hpfx : globLiteral pfx = true) :
    (∀ key, assocGet ((LLMCache.invalidatePrefix st pfx).2).memory key =
      if pyStartsWith key (pfx ++ "_") then Option.none
      else assocGet st.memory key) ∧
    (∀ name, assocGet ((LLMCache.invalidatePrefix st pfx).2).files name =
      if LLMCache.globMatch pfx name then Option.none
      else assocGet st.files name) ∧
    (∀ key, noSlash key = true →
      LLMCache.globMatch pfx (getFilePath key) =
        pyStartsWith key (pfx ++ "_")) ∧
    (∀ (key : String) (now : Nat), noSlash key = true →
      pyStartsWith key (pfx ++ "_") = true →
      (LLMCache.get ((LLMCache.invalidatePrefix st pfx).2) now key).1 =
        PyVal.none) ∧
    (∀ (key : String) (now : Nat), noSlash key = true →
      pyStartsWith key (pfx ++ "_") = false →
      (LLMCache.get ((LLMCache.invalidatePrefix st pfx).2) now key).1 =
        (LLMCache.get st now key).1) ∧
    (let stc := LLMCache.set (LLMCache.set (LLMCache.set (initCache 100 10)
        0 "p_a" (PyVal.int 1) Option.none []) 0 "p_b" (PyVal.int 2)
        Option.none []) 0 "q_a" (PyVal.int 3) Option.none []
     let stc2 := (LLMCache.invalidatePrefix stc "p").2
     (LLMCache.get stc2 0 "p_a").1 = PyVal.none ∧
     (LLMCache.get stc2 0 "p_b").1 = PyVal.none ∧
     (LLMCache.get stc2 0 "q_a").1 = PyVal.int 3) := by
  have hglob : ∀ key : String, noSlash key = true →
      LLMCache.globMatch pfx (getFilePath key) =
        pyStartsWith key (pfx ++ "_") := by
    intro key hk
    rw [getFilePath_noSlash hk]
    exact globMatch_json pfx key hk
  refine ⟨invalidatePrefix_memory st pfx, invalidatePrefix_files st pfx,
    hglob, ?_, ?_, by decide⟩
  · intro key now hk hsw
    have hm : assocGet ((LLMCache.invalidatePrefix st pfx).2).memory key =
        Option.none := by
      rw [invalidatePrefix_memory, hsw]
      simp
    have hf : assocGet ((LLMCache.invalidatePrefix st pfx).2).files
        (getFilePath key) = Option.none := by
      rw [invalidatePrefix_files, hglob key hk, hsw]
      simp
    simp [LLMCache.get, LLMCache.getFile, hm, hf]
  · intro key now hk hsw
    apply get_value_congr
    · rw [invalidatePrefix_memory, hsw]
      simp
    · rw [invalidatePrefix_files, hglob key hk, hsw]
      simp

/-- C8 witness: the amended theorem at a concrete state, showing a
prefixed key is a miss after invalidation. -/
theorem c8_witness :
    (LLMCache.get ((LLMCache.invalidatePrefix
      (LLMCache.set (initCache 100 10) 0 "p_x" (PyVal.int 7) Option.none [])
      "p").2) 0 "p_x").1 = PyVal.none :=
  (c8_invalidate_prefix_separator_free
    (LLMCache.set (initCache 100 10) 0 "p_x" (PyVal.int 7) Option.none [])
    "p" (by decide)).2.2.2.1 "p_x" 0 (by decide) (by decide)

end Homebook
